import Mathlib

/-!
Verification of the version-guard pull-request linter (src/src/main.ts).

Strings of the TypeScript source are modelled as `List Char`.  Each regular
expression of the source is hand-translated into a structurally recursive
scanner over `List Char` that mirrors the JavaScript matching semantics of that
concrete pattern (leftmost match, greedy quantifiers, the `i`/`g`/`m` flags
where present).  All definitions are executable so that concrete runs can be
settled by `decide`.
-/

namespace VersionGuard

/-- The string model: a JavaScript string as its list of characters. -/
abbrev Str := List Char

/-- Coerce a Lean string literal into the model. -/
def strOf (s : String) : Str := s.data

/-- JavaScript `\s` (ECMAScript WhiteSpace and LineTerminator characters). -/
def isJsWs (c : Char) : Bool :=
  c = ' ' || c = '\t' || c = '\n' || c = '\r' || c = '\x0b' || c = '\x0c' ||
  c = '\u00A0' || c = '\uFEFF' || c = '\u1680' ||
  ('\u2000' ≤ c && c ≤ '\u200A') ||
  c = '\u2028' || c = '\u2029' || c = '\u202F' || c = '\u205F' || c = '\u3000'

/-- JavaScript `\w`: ASCII letters, digits and underscore. -/
def isWordChar (c : Char) : Bool := c.isAlpha || c.isDigit || c = '_'

/-- Case-insensitive prefix test: `tok` (given lower-case) begins `s`. -/
def ciPrefix : Str → Str → Bool
  | [], _ => true
  | _ :: _, [] => false
  | a :: as, b :: bs => a = b.toLower && ciPrefix as bs

/-- Consume a case-insensitive literal token, returning the rest. -/
def ciAfter (tok : Str) (s : Str) : Option Str :=
  if ciPrefix tok s then some (s.drop tok.length) else none

/-- Consume `\s+` (greedy, maximal run, at least one character). -/
def wsPlus (s : Str) : Option Str :=
  match s with
  | c :: r => if isJsWs c then some (r.dropWhile isJsWs) else none
  | [] => none

/-- `l.takeWhile p` paired with the remainder, requiring at least one char
(the `X+` idiom for a character class `X`). -/
def takeWhile1 (p : Char → Bool) (s : Str) : Option (Str × Str) :=
  match s.takeWhile p with
  | [] => none
  | c :: cs => some (c :: cs, s.drop (c :: cs).length)

/-- Consume one expected character. -/
def litAfter (c : Char) (s : Str) : Option Str :=
  match s with
  | x :: r => if x = c then some r else none
  | [] => none

/-- Consume a case-sensitive literal token. -/
def litSeq (tok : Str) (s : Str) : Option Str :=
  if tok.isPrefixOf s then some (s.drop tok.length) else none

/-- Substring test (JavaScript `String.prototype.includes`). -/
def containsSub (pat s : Str) : Bool := s.tails.any (fun t => pat.isPrefixOf t)

/-- JavaScript `content.split('\n')`. -/
def splitNl : Str → List Str
  | [] => [[]]
  | c :: rest =>
    if c = '\n' then [] :: splitNl rest
    else
      match splitNl rest with
      | [] => [[c]]
      | l :: ls => (c :: l) :: ls

/-- JavaScript `lines.join('\n')`. -/
def joinNl : List Str → Str
  | [] => []
  | [l] => l
  | l :: ls => l ++ '\n' :: joinNl ls

/-- `line.replace(/^\+/, '')`: drop one leading plus sign. -/
def dropPlus (l : Str) : Str :=
  match l with
  | '+' :: r => r
  | l => l

/-- `content.split('\n').map(line => line.replace(/^\+/, '')).join('\n')`. -/
def stripPlus (s : Str) : Str := joinNl ((splitNl s).map dropPlus)

/-! ### The migration checker (`validateDatabaseMigration`) -/

/-- `\s+NOT\s+EXISTS` at the head of `s` (case-insensitive). -/
def notExistsTail (s : Str) : Bool :=
  match wsPlus s with
  | some t1 =>
    match ciAfter (strOf "not") t1 with
    | some t2 =>
      match wsPlus t2 with
      | some t3 => ciPrefix (strOf "exists") t3
      | none => false
    | none => false
  | none => false

/-- `IF\s+NOT\s+EXISTS` matches at the head of `s` (case-insensitive). -/
def ifNotExistsHere (s : Str) : Bool :=
  match ciAfter (strOf "if") s with
  | some r => notExistsTail r
  | none => false

/-- `IF\s+EXISTS` matches at the head of `s` (case-insensitive). -/
def ifExistsHere (s : Str) : Bool :=
  match ciAfter (strOf "if") s with
  | some r =>
    match wsPlus r with
    | some r1 => ciPrefix (strOf "exists") r1
    | none => false
  | none => false

/-- `IF\s+(?:NOT\s+)?EXISTS` matches at the head of `s` (case-insensitive). -/
def ifOptNotExistsHere (s : Str) : Bool :=
  match ciAfter (strOf "if") s with
  | some r => notExistsTail r || (match wsPlus r with
      | some r1 => ciPrefix (strOf "exists") r1
      | none => false)
  | none => false

/-- `(?:WHERE|IF)\s+NOT\s+EXISTS` matches at the head of `s`. -/
def whereIfNotExistsHere (s : Str) : Bool :=
  (match ciAfter (strOf "where") s with
   | some r => notExistsTail r
   | none => false) || ifNotExistsHere s

/-- The lookahead body `.*?X`: `p` holds at some position reachable from the
start without crossing a line terminator (`.` does not match `\n`). -/
def laScan (p : Str → Bool) : Str → Bool
  | [] => p []
  | c :: rest => p (c :: rest) || (c ≠ '\n' && laScan p rest)

/-- `/IF\s+(?:NOT\s+)?EXISTS/i.test(s)`: the block-wide guard probe of the
migration checker. -/
def hasIfCheck (s : Str) : Bool := s.tails.any ifOptNotExistsHere

/-- `IF\s+NOT\s+EXISTS` occurs somewhere in `s` (case-insensitive). -/
def hasIfNotExists (s : Str) : Bool := s.tails.any ifNotExistsHere

/-- `W1\s+W2\s+` at the head of `t` (case-insensitive), returning the rest. -/
def stmtShapeHere (w1 w2 : Str) (t : Str) : Option Str :=
  match ciAfter w1 t with
  | some t1 =>
    match wsPlus t1 with
    | some t2 =>
      match ciAfter w2 t2 with
      | some t3 => wsPlus t3
      | none => none
    | none => none
  | none => none

/-- Head of `u` is a `\w` character. -/
def headIsWord (u : Str) : Bool :=
  match u with
  | c :: _ => isWordChar c
  | [] => false

/-- `/W1\s+W2\s+(?!.*?LA)(\w+)/i.test(s)`: the shape of the four risky
statement patterns of the migration checker. -/
def riskyTest (w1 w2 : Str) (la : Str → Bool) (s : Str) : Bool :=
  s.tails.any (fun t =>
    match stmtShapeHere w1 w2 t with
    | some u => !laScan la u && headIsWord u
    | none => false)

/-- `/W1\s+W2\s+(\w+)/i.test(s)`: the statement shape with the negative
lookahead removed (used to compare against the source patterns). -/
def plainTest (w1 w2 : Str) (s : Str) : Bool :=
  s.tails.any (fun t =>
    match stmtShapeHere w1 w2 t with
    | some u => headIsWord u
    | none => false)

/-- `/CREATE\s+TABLE\s+(?!.*?IF\s+NOT\s+EXISTS)(\w+)/i.test`. -/
def createTest (s : Str) : Bool :=
  riskyTest (strOf "create") (strOf "table") ifNotExistsHere s

/-- `/ALTER\s+TABLE\s+(?!.*?IF\s+(?:NOT\s+)?EXISTS)(\w+)/i.test`. -/
def alterTest (s : Str) : Bool :=
  riskyTest (strOf "alter") (strOf "table") ifOptNotExistsHere s

/-- `/INSERT\s+INTO\s+(?!.*?(?:WHERE|IF)\s+NOT\s+EXISTS)(\w+)/i.test`. -/
def insertTest (s : Str) : Bool :=
  riskyTest (strOf "insert") (strOf "into") whereIfNotExistsHere s

/-- `/DROP\s+TABLE\s+(?!.*?IF\s+EXISTS)(\w+)/i.test`. -/
def dropTest (s : Str) : Bool :=
  riskyTest (strOf "drop") (strOf "table") ifExistsHere s

/-- `DO\s*\$\$\s*BEGIN` at the head of `t` (case-insensitive), returning the
rest after `BEGIN`. -/
def doBeginHere (t : Str) : Option Str :=
  match ciAfter (strOf "do") t with
  | some t1 =>
    match litSeq (strOf "$$") (t1.dropWhile isJsWs) with
    | some t2 => ciAfter (strOf "begin") (t2.dropWhile isJsWs)
    | none => none
  | none => none

/-- `END\s*\$\$` at the head of `t` (case-insensitive). -/
def endDollarHere (t : Str) : Bool :=
  match ciAfter (strOf "end") t with
  | some t1 => (litSeq (strOf "$$") (t1.dropWhile isJsWs)).isSome
  | none => false

/-- `/DO\s*\$\$\s*BEGIN[\s\S]*END\s*\$\$/i.test(s)`: the transactional-wrapper
presence test of the migration checker. -/
def hasProperWrapper (s : Str) : Bool :=
  s.tails.any (fun t =>
    match doBeginHere t with
    | some rest => rest.tails.any endDollarHere
    | none => false)

/-- `BEGIN` matches at the head of `t` (case-insensitive). -/
def beginHere (t : Str) : Bool := ciPrefix (strOf "begin") t

/-- `END` matches at the head of `t` (case-insensitive). -/
def endHere (t : Str) : Bool := ciPrefix (strOf "end") t

/-- Index of the leftmost suffix of `s` satisfying `p`. -/
def findFirstIdx (p : Str → Bool) : Str → Option Nat
  | [] => if p [] then some 0 else none
  | c :: rest =>
    if p (c :: rest) then some 0 else (findFirstIdx p rest).map (· + 1)

/-- `cleanContent.match(/BEGIN([\s\S]*?)END/i)?.[1] || ''`: the text strictly
between the first `BEGIN` and the first following `END`. -/
def blockContent (s : Str) : Str :=
  match findFirstIdx beginHere s with
  | none => []
  | some i =>
    let after := s.drop (i + 5)
    match findFirstIdx endHere after with
    | none => []
    | some j => after.take j

/-- The missing transactional-wrapper warning. -/
def wrapperMsg : Str :=
  strOf "⚠️ Migration should be wrapped in `DO $$ BEGIN ... END $$` block"

/-- The `CREATE TABLE` rule warning. -/
def createMsg : Str :=
  strOf "⚠️ Use `CREATE TABLE IF NOT EXISTS` for idempotent table creation"

/-- The `ALTER TABLE` rule warning. -/
def alterMsg : Str :=
  strOf "⚠️ Use `ALTER TABLE IF EXISTS` for idempotent table alterations"

/-- The `INSERT INTO` rule warning. -/
def insertMsg : Str :=
  strOf "⚠️ Consider adding `WHERE NOT EXISTS` check for idempotent data insertion"

/-- The `DROP TABLE` rule warning. -/
def dropMsg : Str :=
  strOf "⚠️ Use `DROP TABLE IF EXISTS` for idempotent table removal"

/-- The `riskyPatterns` table of `validateDatabaseMigration`. -/
def riskyRules : List ((Str → Bool) × Str) :=
  [(createTest, createMsg), (alterTest, alterMsg),
   (insertTest, insertMsg), (dropTest, dropMsg)]

/-- `validateDatabaseMigration(content)` of src/src/main.ts: strip leading `+`
markers, require the `DO $$ BEGIN ... END $$` wrapper, then run the four risky
statement patterns against the first `BEGIN ... END` block, suppressing every
warning when an `IF [NOT] EXISTS` guard occurs anywhere in the block. -/
def validateDatabaseMigration (content : Str) : List Str :=
  let cleanContent := stripPlus content
  if hasProperWrapper cleanContent then
    let inner := blockContent cleanContent
    riskyRules.filterMap (fun r =>
      if r.1 inner && !hasIfCheck inner then some r.2 else none)
  else [wrapperMsg]

/-! ### Global regex scanning (`String.prototype.matchAll` with the `g` flag)

`scanAllGo` walks the subject left to right.  At each position it tries the
deterministic single-match step; on success it records the captures and
resumes after the match (JavaScript `lastIndex` semantics), otherwise it
advances one character.  The fuel argument (initially the subject length) only
makes the recursion structural; every step consumes at least one character, so
the fuel never runs out early. -/
def scanAllGo (step : Str → Option (α × Nat)) : Nat → Str → List α
  | 0, _ => []
  | _, [] => []
  | fuel + 1, c :: rest =>
    match step (c :: rest) with
    | some (a, k) => a :: scanAllGo step fuel ((c :: rest).drop (max k 1))
    | none => scanAllGo step fuel rest

/-- All matches of a deterministic step, in order (`[...s.matchAll(re)]`). -/
def scanAll (step : Str → Option (α × Nat)) (s : Str) : List α :=
  scanAllGo step s.length s

/-- Like `scanAllGo` but the pattern is anchored at line starts (`^` with the
`m` flag): the step is only tried when the current position is the beginning
of the subject or follows a line feed. -/
def scanLinesGo (step : Str → Option (α × Nat)) : Nat → Bool → Str → List α
  | 0, _, _ => []
  | _, _, [] => []
  | fuel + 1, atStart, c :: rest =>
    match (if atStart then step (c :: rest) else none) with
    | some (a, k) =>
      a :: scanLinesGo step fuel (((c :: rest).take (max k 1)).getLast? = some '\n')
        ((c :: rest).drop (max k 1))
    | none => scanLinesGo step fuel (c = '\n') rest

/-- All line-start anchored matches of a deterministic step, in order. -/
def scanLines (step : Str → Option (α × Nat)) (s : Str) : List α :=
  scanLinesGo step s.length true s

/-! ### Version-pinning matchers -/

/-- One match of `/"([^"]+)":\s*"([^"]+)"/g`: a `"name": "version"` pair. -/
def nodeStep (s : Str) : Option ((Str × Str) × Nat) :=
  match litAfter '"' s with
  | none => none
  | some t1 =>
    match takeWhile1 (fun c => c ≠ '"') t1 with
    | none => none
    | some (g1, t2) =>
      match litAfter '"' t2 with
      | none => none
      | some t3 =>
        match litAfter ':' t3 with
        | none => none
        | some t4 =>
          match litAfter '"' (t4.dropWhile isJsWs) with
          | none => none
          | some t6 =>
            match takeWhile1 (fun c => c ≠ '"') t6 with
            | none => none
            | some (g2, t7) =>
              match litAfter '"' t7 with
              | none => none
              | some t8 => some ((g1, g2), s.length - t8.length)

/-- The node warning text for a package and its version. -/
def nodeMsg (packageName version : Str) : Str :=
  strOf "⚠️ Package `" ++ packageName ++
    strOf "` should use exact version instead of `" ++ version ++
    strOf "`. Use exact version pinning for reproducible builds."

/-- `validateNodePackage(content)` of src/src/main.ts. -/
def validateNodePackage (content : Str) : List Str :=
  (scanAll nodeStep content).filterMap (fun m =>
    if m.2.head? = some '^' || m.2.head? = some '~' || m.2 = strOf "*" then
      some (nodeMsg m.1 m.2)
    else none)

/-- A character of the class `[<>=~]`. -/
def pyOpChar (c : Char) : Bool := c = '<' || c = '>' || c = '=' || c = '~'

/-- `\s*[0-9][^;\s]*` at the head of `t`, returning the matched text and the
rest. -/
def pyCont (t : Str) : Option (Str × Str) :=
  match t.dropWhile isJsWs with
  | d :: r =>
    if d.isDigit then
      let ver := r.takeWhile (fun c => !(c = ';' || isJsWs c))
      some (t.takeWhile isJsWs ++ d :: ver, r.drop ver.length)
    else none
  | [] => none

/-- `(?:[<>=~]{1,2}|\^)?\s*[0-9][^;\s]*` at the head of `t` (the optional
version constraint of the python requirement pattern), trying the greedy
two-character operator first, then one character, then `^`, then none. -/
def pyG2 (t : Str) : Option (Str × Str) :=
  (match t with
   | a :: b :: r =>
     if pyOpChar a && pyOpChar b then
       (pyCont r).map (fun m => (a :: b :: m.1, m.2))
     else none
   | _ => none) <|>
  (match t with
   | a :: r => if pyOpChar a then (pyCont r).map (fun m => (a :: m.1, m.2)) else none
   | _ => none) <|>
  (match t with
   | '^' :: r => (pyCont r).map (fun m => ('^' :: m.1, m.2))
   | _ => none) <|>
  pyCont t

/-- One line-start match of
`/^([^=><~\s]+)\s*((?:[<>=~]{1,2}|\^)?\s*[0-9][^;\s]*)?/gm`. -/
def pyStep (s : Str) : Option ((Str × Option Str) × Nat) :=
  match takeWhile1 (fun c => !(pyOpChar c || isJsWs c)) s with
  | none => none
  | some (g1, t1) =>
    let t2 := t1.dropWhile isJsWs
    match pyG2 t2 with
    | some (g2, rest) => some ((g1, some g2), s.length - rest.length)
    | none => some ((g1, none), s.length - t2.length)

/-- The python warning text. -/
def pyMsg (packageName version : Str) : Str :=
  strOf "⚠️ Python package `" ++ packageName ++
    strOf "` should use exact version (==) instead of `" ++ version ++ strOf "`."

/-- The python floating-constraint policy:
`!version || version.includes('~=') || version.includes('>') ||
version.includes('<')`. -/
def pyFlag (vOpt : Option Str) : Bool :=
  match vOpt with
  | none => true
  | some v =>
    containsSub (strOf "~=") v || containsSub (strOf ">") v ||
      containsSub (strOf "<") v

/-- `validatePythonPackage(content)` of src/src/main.ts
(`${version || 'unspecified'}` in the message). -/
def validatePythonPackage (content : Str) : List Str :=
  (scanLines pyStep content).filterMap (fun m =>
    if pyFlag m.2 then some (pyMsg m.1 (m.2.getD (strOf "unspecified")))
    else none)

/-- One match of `/gem\s+['"]([^'"]+)['"]\s*,\s*['"]([^'"]+)['"]/g`. -/
def rubyStep (s : Str) : Option ((Str × Str) × Nat) :=
  match litSeq (strOf "gem") s with
  | none => none
  | some t0 =>
    match wsPlus t0 with
    | none => none
    | some t1 =>
      match t1 with
      | q1 :: t2 =>
        if q1 = '\'' || q1 = '"' then
          match takeWhile1 (fun c => !(c = '\'' || c = '"')) t2 with
          | none => none
          | some (g1, t3) =>
            match t3 with
            | q2 :: t4 =>
              if q2 = '\'' || q2 = '"' then
                match litAfter ',' (t4.dropWhile isJsWs) with
                | none => none
                | some t5 =>
                  match (t5.dropWhile isJsWs) with
                  | q3 :: t6 =>
                    if q3 = '\'' || q3 = '"' then
                      match takeWhile1 (fun c => !(c = '\'' || c = '"')) t6 with
                      | none => none
                      | some (g2, t7) =>
                        match t7 with
                        | q4 :: t8 =>
                          if q4 = '\'' || q4 = '"' then
                            some ((g1, g2), s.length - t8.length)
                          else none
                        | [] => none
                    else none
                  | [] => none
              else none
            | [] => none
        else none
      | [] => none

/-- The ruby warning text. -/
def rubyMsg (gemName version : Str) : Str :=
  strOf "⚠️ Ruby gem `" ++ gemName ++
    strOf "` should use exact version instead of `" ++ version ++ strOf "`."

/-- `validateRubyPackage(content)` of src/src/main.ts. -/
def validateRubyPackage (content : Str) : List Str :=
  (scanAll rubyStep content).filterMap (fun m =>
    if containsSub (strOf "~>") m.2 || containsSub (strOf ">") m.2 ||
        containsSub (strOf "<") m.2 then
      some (rubyMsg m.1 m.2)
    else none)

/-- One match of `/([^:]+):([^:]+):([^'\s]+)/g`: a gradle coordinate triple. -/
def gradleStep (s : Str) : Option ((Str × Str × Str) × Nat) :=
  match takeWhile1 (fun c => c ≠ ':') s with
  | none => none
  | some (g1, t1) =>
    match litAfter ':' t1 with
    | none => none
    | some t2 =>
      match takeWhile1 (fun c => c ≠ ':') t2 with
      | none => none
      | some (g2, t3) =>
        match litAfter ':' t3 with
        | none => none
        | some t4 =>
          match takeWhile1 (fun c => !(c = '\'' || isJsWs c)) t4 with
          | none => none
          | some (g3, t5) => some ((g1, g2, g3), s.length - t5.length)

/-- One match of `/<version>([^<]+)<\/version>/g`: a maven version tag. -/
def mavenStep (s : Str) : Option (Str × Nat) :=
  match litSeq (strOf "<version>") s with
  | none => none
  | some t1 =>
    match takeWhile1 (fun c => c ≠ '<') t1 with
    | none => none
    | some (g1, t2) =>
      match litSeq (strOf "</version>") t2 with
      | none => none
      | some t3 => some (g1, s.length - t3.length)

/-- The gradle warning text (names group, artifact and version). -/
def gradleMsg (group artifact version : Str) : Str :=
  strOf "⚠️ Gradle dependency `" ++ group ++ strOf ":" ++ artifact ++
    strOf "` should use exact version instead of `" ++ version ++ strOf "`."

/-- The maven warning text (names only the version). -/
def mavenMsg (version : Str) : Str :=
  strOf "⚠️ Maven dependency should use exact version instead of `" ++
    version ++ strOf "`."

/-- The gradle floating-version policy. -/
def gradleBad (v : Str) : Bool :=
  containsSub (strOf "+") v || (strOf ".+").isSuffixOf v ||
    containsSub (strOf "latest") v

/-- The maven floating-version policy (case-sensitive literals). -/
def mavenBad (v : Str) : Bool :=
  containsSub (strOf "SNAPSHOT") v || containsSub (strOf "RELEASE") v ||
    containsSub (strOf "LATEST") v

/-- `validateJavaPackage(content)` of src/src/main.ts: all gradle warnings,
then all maven warnings. -/
def validateJavaPackage (content : Str) : List Str :=
  (scanAll gradleStep content).filterMap (fun m =>
    if gradleBad m.2.2 then some (gradleMsg m.1 m.2.1 m.2.2) else none) ++
  (scanAll mavenStep content).filterMap (fun v =>
    if mavenBad v then some (mavenMsg v) else none)

/-- One match of `/image:\s*([^:\s]+)(?::([^\s]+))?/g`. -/
def k8sStep (s : Str) : Option ((Str × Option Str) × Nat) :=
  match litSeq (strOf "image:") s with
  | none => none
  | some t1 =>
    match takeWhile1 (fun c => !(c = ':' || isJsWs c)) (t1.dropWhile isJsWs) with
    | none => none
    | some (g1, t2) =>
      match t2 with
      | ':' :: r =>
        match takeWhile1 (fun c => !isJsWs c) r with
        | some (g2, rest) => some ((g1, some g2), s.length - rest.length)
        | none => some ((g1, none), s.length - t2.length)
      | _ => some ((g1, none), s.length - t2.length)

/-- `/^\d+$/.test(tag)`. -/
def allDigits1 (t : Str) : Bool := !t.isEmpty && t.all Char.isDigit

/-- `/^\d+\.\d+$/.test(tag)`. -/
def majMin (t : Str) : Bool :=
  match t.takeWhile Char.isDigit with
  | [] => false
  | d :: ds =>
    match t.drop (d :: ds).length with
    | '.' :: rest => allDigits1 rest
    | _ => false

/-- `/^[a-zA-Z]+$/.test(tag)`. -/
def allAlpha1 (t : Str) : Bool := !t.isEmpty && t.all Char.isAlpha

/-- The kubernetes/compose floating-tag policy:
`!tag || tag === 'latest' || /^\d+$/.test(tag) || /^\d+\.\d+$/.test(tag)`. -/
def k8sBadTag (tag : Option Str) : Bool :=
  match tag with
  | none => true
  | some t => t = strOf "latest" || allDigits1 t || majMin t

/-- The kubernetes warning text (`${tag || 'latest'}`). -/
def k8sMsg (image : Str) (tag : Option Str) : Str :=
  strOf "⚠️ Kubernetes container `" ++ image ++
    strOf "` should use specific version tag instead of `" ++
    tag.getD (strOf "latest") ++ strOf "`."

/-- `validateKubernetesManifest(content)` of src/src/main.ts. -/
def validateKubernetesManifest (content : Str) : List Str :=
  (scanAll k8sStep content).filterMap (fun m =>
    if k8sBadTag m.2 then some (k8sMsg m.1 m.2) else none)

/-- One match of `/image:\s*['"]?([^:\s'"]+)(?::([^\s'"]+))?['"]?/g`. -/
def composeStep (s : Str) : Option ((Str × Option Str) × Nat) :=
  match litSeq (strOf "image:") s with
  | none => none
  | some t1 =>
    let t2 := t1.dropWhile isJsWs
    let t3 := match t2 with
      | q :: r => if q = '\'' || q = '"' then r else t2
      | [] => t2
    match takeWhile1 (fun c => !(c = ':' || c = '\'' || c = '"' || isJsWs c)) t3 with
    | none => none
    | some (g1, t4) =>
      let tagged : Option Str × Str :=
        match t4 with
        | ':' :: r =>
          match takeWhile1 (fun c => !(isJsWs c || c = '\'' || c = '"')) r with
          | some (g2, rest) => (some g2, rest)
          | none => (none, t4)
        | _ => (none, t4)
      let t5 := match tagged.2 with
        | q :: r => if q = '\'' || q = '"' then r else tagged.2
        | [] => tagged.2
      some ((g1, tagged.1), s.length - t5.length)

/-- The docker-compose warning text. -/
def composeMsg (image : Str) (tag : Option Str) : Str :=
  strOf "⚠️ Docker Compose service `" ++ image ++
    strOf "` should use specific version tag instead of `" ++
    tag.getD (strOf "latest") ++ strOf "`."

/-- `validateDockerCompose(content)` of src/src/main.ts. -/
def validateDockerCompose (content : Str) : List Str :=
  (scanAll composeStep content).filterMap (fun m =>
    if k8sBadTag m.2 then some (composeMsg m.1 m.2) else none)

/-- Index of the last character of `ws` that is not a line feed. -/
def lastNonNlIdx (ws : Str) : Option Nat :=
  ((List.range ws.length).filter (fun k => !(ws.get? k == some '\n'))).max?

/-- One line-start match of `/^FROM\s+[^\n]+/gm`.  The usual case is a `FROM`
line: literal `FROM`, a maximal whitespace run that stays inside the line, and
the rest of the line.  When the whitespace run reaches the end of the subject
(or only line feeds follow), the greedy `\s+` hands characters back until
`[^\n]+` can match at least one character. -/
def fromStep (s : Str) : Option (Str × Nat) :=
  match litSeq (strOf "FROM") s with
  | none => none
  | some t1 =>
    let ws := t1.takeWhile isJsWs
    if ws.isEmpty then none
    else
      match t1.drop ws.length with
      | c :: r =>
        let body := c :: r.takeWhile (fun x => x ≠ '\n')
        some (strOf "FROM" ++ ws ++ body, 4 + ws.length + body.length)
      | [] =>
        match lastNonNlIdx ws with
        | some k =>
          if k = 0 then none
          else
            let body := (ws.drop k).takeWhile (fun x => x ≠ '\n')
            some (strOf "FROM" ++ ws.take k ++ body, 4 + k + body.length)
        | none => none

/-- The leftmost result of `f` over the suffixes of `s` (an unanchored
`String.prototype.match` search). -/
def firstSome (f : Str → Option α) (s : Str) : Option α :=
  (s.tails.filterMap f).head?

/-- One match of `/FROM\s+([^:\s]+)(?::([^\s]+))?/` at the head of `t`:
image reference and optional tag. -/
def fromInner (t : Str) : Option (Str × Option Str) :=
  match litSeq (strOf "FROM") t with
  | none => none
  | some t1 =>
    match wsPlus t1 with
    | none => none
    | some t2 =>
      match takeWhile1 (fun c => !(c = ':' || isJsWs c)) t2 with
      | none => none
      | some (g1, t3) =>
        match t3 with
        | ':' :: r =>
          match takeWhile1 (fun c => !isJsWs c) r with
          | some (g2, _) => some (g1, some g2)
          | none => some (g1, none)
        | _ => some (g1, none)

/-- The Dockerfile floating-tag policy: one of the literal aliases, a bare
integer, a `major.minor` pair, or purely alphabetic. -/
def floatTag (tag : Str) : Bool :=
  tag = strOf "latest" || tag = strOf "stable" || tag = strOf "rolling" ||
  tag = strOf "alpine" || allDigits1 tag || majMin tag || allAlpha1 tag

/-- The Dockerfile missing-tag warning text. -/
def dockerNoTagMsg (image : Str) : Str :=
  strOf "⚠️ Docker image `" ++ image ++
    strOf "` has no version tag specified. Use specific version tags for reproducible builds."

/-- The Dockerfile floating-tag warning text. -/
def dockerFloatMsg (image tag : Str) : Str :=
  strOf "⚠️ Docker image `" ++ image ++ strOf ":" ++ tag ++
    strOf "` uses non-specific tag. Use complete version numbers (e.g., '20.5.0-alpine3.18')."

/-- The warnings contributed by one matched `FROM` line. -/
def fromLineIssues (fromLine : Str) : List Str :=
  match firstSome fromInner fromLine with
  | none => []
  | some (image, none) => [dockerNoTagMsg image]
  | some (image, some tag) =>
    if floatTag tag then [dockerFloatMsg image tag] else []

/-- `validateDockerfile(content)` of src/src/main.ts. -/
def validateDockerfile (content : Str) : List Str :=
  let cleanContent := stripPlus content
  (scanLines fromStep cleanContent).flatMap fromLineIssues

/-- `/^v\d+\.\d+\.\d+$/.test(v)`. -/
def isVSemver (v : Str) : Bool :=
  match v with
  | 'v' :: rest =>
    (match rest.takeWhile Char.isDigit with
     | [] => false
     | d1 =>
       match rest.drop d1.length with
       | '.' :: r2 =>
         (match r2.takeWhile Char.isDigit with
          | [] => false
          | d2 =>
            match r2.drop d2.length with
            | '.' :: r3 => allDigits1 r3
            | _ => false)
       | _ => false)
  | _ => false

/-- One match of `/uses:\s+([^@]+)@([^\s]+)/g`.  When the first character
after the whitespace run is `@`, the greedy `\s+` hands one whitespace
character back so that `[^@]+` can match it. -/
def ghStep (s : Str) : Option ((Str × Str) × Nat) :=
  match litSeq (strOf "uses:") s with
  | none => none
  | some t0 =>
    let ws := t0.takeWhile isJsWs
    if ws.isEmpty then none
    else
      match t0.drop ws.length with
      | '@' :: r =>
        if 2 ≤ ws.length then
          match takeWhile1 (fun c => !isJsWs c) r with
          | none => none
          | some (g2, t4) =>
            some ((ws.drop (ws.length - 1), g2), s.length - t4.length)
        else none
      | u =>
        match takeWhile1 (fun c => c ≠ '@') u with
        | none => none
        | some (g1, t2) =>
          match litAfter '@' t2 with
          | none => none
          | some t3 =>
            match takeWhile1 (fun c => !isJsWs c) t3 with
            | none => none
            | some (g2, t4) => some ((g1, g2), s.length - t4.length)

/-- The GitHub Actions warning text. -/
def ghMsg (action version : Str) : Str :=
  strOf "⚠️ GitHub Action `" ++ action ++
    strOf "` should use exact version (e.g., v1.2.3) instead of `" ++ version ++
    strOf "`. Use specific versions for reproducible workflows."

/-- `validateGitHubActions(diff)` of src/src/main.ts (defined in the source
but registered in no validator table). -/
def validateGitHubActions (diff : Str) : List Str :=
  (scanAll ghStep diff).filterMap (fun m =>
    if m.2 = strOf "main" || m.2 = strOf "master" || !isVSemver m.2 then
      some (ghMsg m.1 m.2)
    else none)

/-! ### The dispatcher (`analyzeCode`) -/

/-- A parse-diff change line kind. -/
inductive ChangeType where
  | add
  | del
  | normal
deriving DecidableEq

/-- A parse-diff change line: kind plus raw line text. -/
structure Change where
  type : ChangeType
  content : Str
deriving DecidableEq

/-- A parse-diff chunk: an ordered list of change lines. -/
structure Chunk where
  changes : List Change
deriving DecidableEq

/-- A parse-diff file: optional destination path plus chunks. -/
structure ChangedFile where
  «to» : Option Str
  chunks : List Chunk
deriving DecidableEq

/-- A registry entry: extension suffixes, name patterns and the matcher. -/
structure FileValidator where
  extensions : List Str
  patterns : List Str
  validate : Str → List Str

/-- The `PACKAGE_VALIDATORS` registry, in `Object.values` order. -/
def PACKAGE_VALIDATORS : List FileValidator :=
  [⟨[strOf "package.json"], [strOf "package.json"], validateNodePackage⟩,
   ⟨[strOf ".txt", strOf ".pip"],
    [strOf "requirements.txt", strOf "requirements/*.txt",
     strOf "requirements/**.txt"], validatePythonPackage⟩,
   ⟨[strOf ".gemfile", strOf ".gemspec"],
    [strOf "Gemfile", strOf "Gemfile.lock"], validateRubyPackage⟩,
   ⟨[strOf ".gradle", strOf ".pom"],
    [strOf "build.gradle", strOf "pom.xml"], validateJavaPackage⟩]

/-- The `CONTAINER_VALIDATORS` registry, in `Object.values` order. -/
def CONTAINER_VALIDATORS : List FileValidator :=
  [⟨[strOf "Dockerfile"],
    [strOf "Dockerfile", strOf "**/Dockerfile", strOf "docker/Dockerfile"],
    validateDockerfile⟩,
   ⟨[strOf ".yaml", strOf ".yml"],
    [strOf "k8s/*.y\x7ba,\x7dml", strOf "kubernetes/*.y\x7ba,\x7dml"],
    validateKubernetesManifest⟩,
   ⟨[strOf ".yaml", strOf ".yml"],
    [strOf "docker-compose.y\x7ba,\x7dml"], validateDockerCompose⟩]

/-- The source evaluates `pattern.match(file.to!)`: `String.prototype.match`
with a string argument compiles the FILE PATH into a regular expression and
searches for it inside the pattern string.  We model this compilation for
paths made of regex-literal characters and the `.` wildcard (which matches any
character except a line feed); every path appearing in the theorems below is
of this shape. -/
def matchDotLit : Str → Str → Bool
  | [], _ => true
  | _ :: _, [] => false
  | p :: ps, c :: cs => (if p = '.' then c ≠ '\n' else p = c) && matchDotLit ps cs

/-- `pattern.match(new RegExp(path)) !== null` for a literal-and-dot path. -/
def patternTest (pattern path : Str) : Bool :=
  pattern.tails.any (matchDotLit path)

/-- The dispatcher's per-validator applicability test:
`validator.extensions.some(ext => file.to.endsWith(ext)) ||
 validator.patterns.some(pattern => pattern.match(file.to))`. -/
def validatorApplies (v : FileValidator) (path : Str) : Bool :=
  v.extensions.any (fun e => e.isSuffixOf path) ||
  v.patterns.any (fun p => patternTest p path)

/-- `file.to.match(/\.(sql|migration)$/) || file.to.includes('migrations/')`. -/
def migrationPath (path : Str) : Bool :=
  (strOf ".sql").isSuffixOf path || (strOf ".migration").isSuffixOf path ||
  containsSub (strOf "migrations/") path

/-- Keep a change line iff `change.type === 'add' || change.type === 'normal'`. -/
def keepChange (c : Change) : Bool :=
  c.type = ChangeType.add || c.type = ChangeType.normal

/-- Blob assembly: within each chunk join the kept lines with `\n`, then join
the chunks with `\n`. -/
def diffContent (f : ChangedFile) : Str :=
  joinNl (f.chunks.map (fun chunk =>
    joinNl ((chunk.changes.filter keepChange).map Change.content)))

/-- The warnings contributed by one changed file: skip deleted files, then run
every applicable package validator, every applicable container validator, and
finally the migration checker when the path looks like a migration. -/
def fileIssues (f : ChangedFile) : List Str :=
  match f.«to» with
  | none => []
  | some path =>
    if path = [] || path = strOf "/dev/null" then []
    else
      let blob := diffContent f
      (PACKAGE_VALIDATORS.filter (fun v => validatorApplies v path)).flatMap
        (fun v => v.validate blob) ++
      (CONTAINER_VALIDATORS.filter (fun v => validatorApplies v path)).flatMap
        (fun v => v.validate blob) ++
      (if migrationPath path then validateDatabaseMigration blob else [])

/-- `analyzeCode(parsedDiff)` of src/src/main.ts: the imperative loop pushing
each file's warnings onto one shared list. -/
def analyzeCode (parsedDiff : List ChangedFile) : List Str :=
  parsedDiff.foldl (fun issues f => issues ++ fileIssues f) []

/-! ### A standard glob matcher, from the specification's words -/

/-- Split the body of a brace alternation `a,b,c}rest` into the alternative
strings and the remainder after the closing brace (single level). -/
def braceSplit : Str → Option (List Str × Str)
  | [] => none
  | c :: r =>
    if c = '\x7d' then some ([[]], r)
    else if c = ',' then (braceSplit r).map (fun x => ([] :: x.1, x.2))
    else
      (braceSplit r).map (fun x =>
        match x.1 with
        | a :: as => ((c :: a) :: as, x.2)
        | [] => ([[c]], x.2))

/-- The expansions of a brace alternation, each with the remaining pattern
appended. -/
def braceAlts (ps : Str) : List Str :=
  match braceSplit ps with
  | some (alts, rest) => alts.map (· ++ rest)
  | none => []

/-- Modelled from the spec: "a standard glob matcher; patterns may include
brace-alternation" (§4.2).  `*` matches any run without `/`, `**` any run,
`?` one non-separator character, `{a,b}` alternation, other characters
literally.  Fuel only makes the recursion structural. -/
def globMatchGo : Nat → Str → Str → Bool
  | 0, _, _ => false
  | fuel + 1, pat, s =>
    match pat, s with
    | [], [] => true
    | [], _ :: _ => false
    | '*' :: '*' :: ps, s =>
      globMatchGo fuel ps s ||
      (match s with
       | _ :: cs => globMatchGo fuel ('*' :: '*' :: ps) cs
       | [] => false)
    | '*' :: ps, s =>
      globMatchGo fuel ps s ||
      (match s with
       | c :: cs => c ≠ '/' && globMatchGo fuel ('*' :: ps) cs
       | [] => false)
    | '?' :: ps, c :: cs => c ≠ '/' && globMatchGo fuel ps cs
    | '?' :: _, [] => false
    | '\x7b' :: ps, s => (braceAlts ps).any (fun alt => globMatchGo fuel alt s)
    | p :: ps, c :: cs => p = c && globMatchGo fuel ps cs
    | _ :: _, [] => false

/-- Modelled from the spec (§4.2): the glob match the dispatcher is specified
to perform between a validator name pattern and a file path. -/
def globMatch (pattern path : Str) : Bool :=
  globMatchGo (pattern.length + path.length + 1) pattern path

/-! ### Helper lemmas: lines, joins and splits -/

lemma splitNl_ne_nil (s : Str) : splitNl s ≠ [] := by
  induction s with
  | nil => simp [splitNl]
  | cons c rest ih =>
    by_cases h : c = '\n'
    · simp [splitNl, h]
    · simp only [splitNl, if_neg h]
      cases hs : splitNl rest with
      | nil => simp
      | cons l ls => simp

lemma nl_not_mem_splitNl (s : Str) : ∀ l ∈ splitNl s, '\n' ∉ l := by
  induction s with
  | nil => intro l hl; simp [splitNl] at hl; simp [hl]
  | cons c rest ih =>
    intro l hl
    by_cases h : c = '\n'
    · simp only [splitNl, if_pos h] at hl
      rcases List.mem_cons.mp hl with rfl | hl'
      · simp
      · exact ih l hl'
    · simp only [splitNl, if_neg h] at hl
      cases hs : splitNl rest with
      | nil => exact absurd hs (splitNl_ne_nil rest)
      | cons x xs =>
        rw [hs] at hl
        rcases List.mem_cons.mp hl with rfl | hl'
        · intro hmem
          rcases List.mem_cons.mp hmem with rfl | hmem'
          · exact h rfl
          · exact ih x (by rw [hs]; exact List.mem_cons_self x xs) hmem'
        · exact ih l (by rw [hs]; exact List.mem_cons_of_mem x hl')

lemma joinNl_cons (l : Str) (ls : List Str) (h : ls ≠ []) :
    joinNl (l :: ls) = l ++ '\n' :: joinNl ls := by
  cases ls with
  | nil => exact absurd rfl h
  | cons x xs => rfl

lemma joinNl_splitNl (s : Str) : joinNl (splitNl s) = s := by
  induction s with
  | nil => rfl
  | cons c rest ih =>
    by_cases h : c = '\n'
    · rw [splitNl, if_pos h, joinNl_cons _ _ (splitNl_ne_nil rest), ih, h]
      rfl
    · rw [splitNl, if_neg h]
      cases hs : splitNl rest with
      | nil => exact absurd hs (splitNl_ne_nil rest)
      | cons x xs =>
        rw [hs] at ih
        cases xs with
        | nil => simp only [joinNl] at ih ⊢; rw [ih]
        | cons y ys =>
          rw [joinNl_cons _ _ (by simp), List.cons_append,
            ← joinNl_cons x (y :: ys) (by simp), ih]

lemma splitNl_no_nl (l : Str) (h : '\n' ∉ l) : splitNl l = [l] := by
  induction l with
  | nil => rfl
  | cons c rest ih =>
    have hc : c ≠ '\n' := fun hc => h (by simp [hc])
    rw [splitNl, if_neg hc, ih (fun hm => h (List.mem_cons_of_mem c hm))]

lemma splitNl_append_nl (l t : Str) (h : '\n' ∉ l) :
    splitNl (l ++ '\n' :: t) = l :: splitNl t := by
  induction l with
  | nil => simp [splitNl]
  | cons c rest ih =>
    have hc : c ≠ '\n' := fun hc => h (by simp [hc])
    rw [List.cons_append, splitNl, if_neg hc,
      ih (fun hm => h (List.mem_cons_of_mem c hm))]

lemma splitNl_joinNl (ls : List Str) (hne : ls ≠ [])
    (h : ∀ l ∈ ls, '\n' ∉ l) : splitNl (joinNl ls) = ls := by
  induction ls with
  | nil => exact absurd rfl hne
  | cons l rest ih =>
    cases rest with
    | nil => exact splitNl_no_nl l (h l (by simp))
    | cons y ys =>
      rw [joinNl_cons _ _ (by simp),
        splitNl_append_nl _ _ (h l (by simp)),
        ih (by simp) (fun x hx => h x (List.mem_cons_of_mem l hx))]

lemma joinNl_append (a b : List Str) (ha : a ≠ []) (hb : b ≠ []) :
    joinNl (a ++ b) = joinNl a ++ '\n' :: joinNl b := by
  induction a with
  | nil => exact absurd rfl ha
  | cons x xs ih =>
    cases xs with
    | nil => cases b with
      | nil => exact absurd rfl hb
      | cons y ys => simp [joinNl]
    | cons z zs =>
      rw [List.cons_append, joinNl_cons _ _ (by simp),
        joinNl_cons x (z :: zs) (by simp), ih (by simp), List.append_assoc]
      rfl

lemma joinNl_map_joinNl (ls : List (List Str)) (h : ∀ x ∈ ls, x ≠ []) :
    joinNl (ls.map joinNl) = joinNl ls.flatten := by
  induction ls with
  | nil => rfl
  | cons x xs ih =>
    cases xs with
    | nil => simp [joinNl]
    | cons y ys =>
      have hx : x ≠ [] := h x (by simp)
      have hfl : (y :: ys).flatten ≠ [] := by
        have hy : y ≠ [] := h y (by simp)
        cases y with
        | nil => exact absurd rfl hy
        | cons c cs => simp [List.flatten]
      conv_rhs => rw [List.flatten_cons, joinNl_append x _ hx hfl]
      rw [List.map_cons, joinNl_cons _ _ (by simp), ih
        (fun z hz => h z (List.mem_cons_of_mem x hz))]

/-! ### Helper lemmas: takeWhile and dropWhile over appends -/

lemma takeWhile_all_append (p : Char → Bool) (l₁ l₂ : Str)
    (h : ∀ c ∈ l₁, p c = true) :
    (l₁ ++ l₂).takeWhile p = l₁ ++ l₂.takeWhile p := by
  induction l₁ with
  | nil => simp
  | cons c cs ih =>
    rw [List.cons_append, List.takeWhile_cons, if_pos (h c (by simp)),
      ih (fun x hx => h x (List.mem_cons_of_mem c hx))]
    rfl

lemma dropWhile_all_append (p : Char → Bool) (l₁ l₂ : Str)
    (h : ∀ c ∈ l₁, p c = true) :
    (l₁ ++ l₂).dropWhile p = l₂.dropWhile p := by
  induction l₁ with
  | nil => simp
  | cons c cs ih =>
    rw [List.cons_append, List.dropWhile_cons, if_pos (h c (by simp)),
      ih (fun x hx => h x (List.mem_cons_of_mem c hx))]

lemma takeWhile_head_neg (p : Char → Bool) (c : Char) (l : Str)
    (h : p c = false) : (c :: l).takeWhile p = [] := by
  rw [List.takeWhile_cons, if_neg (by simp [h])]

lemma dropWhile_head_neg (p : Char → Bool) (c : Char) (l : Str)
    (h : p c = false) : (c :: l).dropWhile p = c :: l := by
  rw [List.dropWhile_cons, if_neg (by simp [h])]

/-! ### Helper lemmas: suffixes reached by the matchers -/

lemma ciAfter_suffix {tok s r : Str} (h : ciAfter tok s = some r) : r <:+ s := by
  unfold ciAfter at h
  split at h
  · cases h; exact List.drop_suffix _ _
  · cases h

lemma wsPlus_suffix {s r : Str} (h : wsPlus s = some r) : r <:+ s := by
  cases s with
  | nil => simp [wsPlus] at h
  | cons c cs =>
    cases hw : isJsWs c with
    | false => simp [wsPlus, hw] at h
    | true =>
      simp only [wsPlus, hw, if_true, Option.some.injEq] at h
      rw [← h]
      exact (List.dropWhile_suffix _).trans (List.suffix_cons c cs)

lemma stmtShapeHere_suffix {w1 w2 t u : Str}
    (h : stmtShapeHere w1 w2 t = some u) : u <:+ t := by
  unfold stmtShapeHere at h
  cases h1 : ciAfter w1 t with
  | none => simp [h1] at h
  | some t1 =>
    simp only [h1] at h
    cases h2 : wsPlus t1 with
    | none => simp [h2] at h
    | some t2 =>
      simp only [h2] at h
      cases h3 : ciAfter w2 t2 with
      | none => simp [h3] at h
      | some t3 =>
        simp only [h3] at h
        exact (wsPlus_suffix h).trans
          ((ciAfter_suffix h3).trans ((wsPlus_suffix h2).trans (ciAfter_suffix h1)))

lemma laScan_exists {p : Str → Bool} {u : Str} (h : laScan p u = true) :
    ∃ v, v <:+ u ∧ p v = true := by
  induction u with
  | nil => exact ⟨[], List.suffix_refl [], h⟩
  | cons c rest ih =>
    unfold laScan at h
    rcases Bool.or_eq_true_iff.mp h with h1 | h2
    · exact ⟨c :: rest, List.suffix_refl _, h1⟩
    · rcases ih (Bool.and_eq_true_iff.mp h2).2 with ⟨v, hv, hpv⟩
      exact ⟨v, hv.trans (List.suffix_cons c rest), hpv⟩

lemma ifNot_imp_opt {v : Str} (h : ifNotExistsHere v = true) :
    ifOptNotExistsHere v = true := by
  unfold ifNotExistsHere at h
  unfold ifOptNotExistsHere
  cases hc : ciAfter (strOf "if") v with
  | none => simp [hc] at h
  | some r =>
    simp only [hc] at h ⊢
    simp [h]

lemma ifExists_imp_opt {v : Str} (h : ifExistsHere v = true) :
    ifOptNotExistsHere v = true := by
  unfold ifExistsHere at h
  unfold ifOptNotExistsHere
  cases hc : ciAfter (strOf "if") v with
  | none => simp [hc] at h
  | some r =>
    simp only [hc] at h ⊢
    cases hw : wsPlus r with
    | none => simp [hw] at h
    | some r1 =>
      simp only [hw] at h ⊢
      simp [h]

lemma hasIfCheck_of_suffix {s v : Str} (hv : v <:+ s)
    (h : ifOptNotExistsHere v = true) : hasIfCheck s = true := by
  unfold hasIfCheck
  rw [List.any_eq_true]
  exact ⟨v, (List.mem_tails v s).mpr hv, h⟩

lemma hasIfNotExists_imp {s : Str} (h : hasIfNotExists s = true) :
    hasIfCheck s = true := by
  unfold hasIfNotExists at h
  rcases List.any_eq_true.mp h with ⟨v, hv, hpv⟩
  exact hasIfCheck_of_suffix ((List.mem_tails v s).mp hv) (ifNot_imp_opt hpv)

lemma riskyTest_eq_plainTest (w1 w2 : Str) (la : Str → Bool) (s : Str)
    (hla : ∀ v, la v = true → ifOptNotExistsHere v = true)
    (h : hasIfCheck s = false) :
    riskyTest w1 w2 la s = plainTest w1 w2 s := by
  rw [Bool.eq_iff_iff]
  unfold riskyTest plainTest
  rw [List.any_eq_true, List.any_eq_true]
  constructor
  · rintro ⟨t, ht, hmatch⟩
    refine ⟨t, ht, ?_⟩
    revert hmatch
    cases hs : stmtShapeHere w1 w2 t with
    | none => exact id
    | some u => intro hm; exact (Bool.and_eq_true_iff.mp hm).2
  · rintro ⟨t, ht, hmatch⟩
    refine ⟨t, ht, ?_⟩
    revert hmatch
    cases hs : stmtShapeHere w1 w2 t with
    | none => exact id
    | some u =>
      intro hm
      have hfalse : laScan la u = false := by
        cases hcon : laScan la u with
        | false => rfl
        | true =>
          rcases laScan_exists hcon with ⟨v, hvu, hlav⟩
          have hvs : v <:+ s :=
            hvu.trans ((stmtShapeHere_suffix hs).trans ((List.mem_tails t s).mp ht))
          rw [hasIfCheck_of_suffix hvs (hla v hlav)] at h
          cases h
      have hm2 : headIsWord u = true := by simpa using hm
      simp [hfalse, hm2]

lemma mem_filterMap_guard {β : Type} [DecidableEq β]
    (c : ((Str → Bool) × β) → Bool) (l : List ((Str → Bool) × β))
    (g : (Str → Bool) × β) (hmem : g ∈ l)
    (hdist : l.Pairwise (fun a b => a.2 ≠ b.2)) :
    (g.2 ∈ l.filterMap (fun q => if c q then some q.2 else none)) ↔ c g = true := by
  induction l with
  | nil => cases hmem
  | cons hd tl ih =>
    rw [List.pairwise_cons] at hdist
    rcases List.mem_cons.mp hmem with rfl | hmem2
    · rw [List.filterMap_cons]
      cases hc : c g with
      | true =>
        simp only [hc, if_true]
        exact ⟨fun _ => trivial, fun _ => List.mem_cons_self _ _⟩
      | false =>
        simp only [hc, Bool.false_eq_true, if_false]
        constructor
        · intro hin
          rcases List.mem_filterMap.mp hin with ⟨q, hq, heq⟩
          have hq2 : q.2 = g.2 := by
            revert heq
            cases c q <;> simp
          exact absurd hq2.symm (hdist.1 q hq)
        · intro hfalse
          simp at hfalse
    · rw [List.filterMap_cons]
      have hne : g.2 ≠ hd.2 := fun he => (hdist.1 g hmem2) he.symm
      cases hc : c hd with
      | false =>
        simp only [hc, Bool.false_eq_true, if_false]
        exact ih hmem2 hdist.2
      | true =>
        simp only [hc, if_true]
        rw [List.mem_cons]
        constructor
        · rintro (he | hin)
          · exact absurd he hne
          · exact (ih hmem2 hdist.2).mp hin
        · intro hcg
          exact Or.inr ((ih hmem2 hdist.2).mpr hcg)

/-- The spec's example migration blob for the C1 witness. -/
def migrationDemoBlob : Str :=
  strOf "DO $$ BEGIN CREATE TABLE orders (id INT); END $$;"

/-- C1: when the `DO $$ BEGIN ... END $$` wrapper is present, each of the four
structural warnings is emitted iff its risky statement pattern matches the
text between the first `BEGIN` and the first following `END` and no
`IF [NOT] EXISTS` token occurs anywhere in that inner text; in particular any
`IF NOT EXISTS` token in the inner text suppresses all four warnings, and in
the absence of a guard token the `CREATE`/`ALTER`/`DROP` patterns coincide
with the bare statement shapes (their negative lookahead is then redundant). -/
theorem migration_block_wide_guard (content : Str)
    (hw : hasProperWrapper (stripPlus content) = true) :
    (∀ r ∈ riskyRules,
       r.2 ∈ validateDatabaseMigration content ↔
         (r.1 (blockContent (stripPlus content)) = true ∧
          hasIfCheck (blockContent (stripPlus content)) = false)) ∧
    (hasIfNotExists (blockContent (stripPlus content)) = true →
       validateDatabaseMigration content = []) ∧
    (hasIfCheck (blockContent (stripPlus content)) = false →
       createTest (blockContent (stripPlus content)) =
         plainTest (strOf "create") (strOf "table")
           (blockContent (stripPlus content)) ∧
       alterTest (blockContent (stripPlus content)) =
         plainTest (strOf "alter") (strOf "table")
           (blockContent (stripPlus content)) ∧
       dropTest (blockContent (stripPlus content)) =
         plainTest (strOf "drop") (strOf "table")
           (blockContent (stripPlus content))) := by
  have hval : validateDatabaseMigration content =
      riskyRules.filterMap (fun q =>
        if q.1 (blockContent (stripPlus content)) &&
            !hasIfCheck (blockContent (stripPlus content)) then some q.2
        else none) := by
    unfold validateDatabaseMigration
    simp [hw]
  refine ⟨?_, ?_, ?_⟩
  · intro r hr
    rw [hval, mem_filterMap_guard _ riskyRules r hr (by decide)]
    simp
  · intro hine
    have hic := hasIfNotExists_imp hine
    rw [hval]
    simp [riskyRules, hic]
  · intro hic
    unfold createTest alterTest dropTest
    exact ⟨riskyTest_eq_plainTest _ _ _ _ (fun v hv => ifNot_imp_opt hv) hic,
      riskyTest_eq_plainTest _ _ _ _ (fun v hv => hv) hic,
      riskyTest_eq_plainTest _ _ _ _ (fun v hv => ifExists_imp_opt hv) hic⟩

/-- Witness for C1: at the spec's example blob the wrapper is present and the
`CREATE TABLE` warning is characterised by the theorem. -/
theorem migration_block_wide_guard_witness :
    hasProperWrapper (stripPlus migrationDemoBlob) = true ∧
    (createMsg ∈ validateDatabaseMigration migrationDemoBlob ↔
      (createTest (blockContent (stripPlus migrationDemoBlob)) = true ∧
       hasIfCheck (blockContent (stripPlus migrationDemoBlob)) = false)) :=
  ⟨by decide,
   (migration_block_wide_guard migrationDemoBlob (by decide)).1
     (createTest, createMsg) (by simp [riskyRules])⟩

/-- C2: without the `DO $$ BEGIN ... END $$` wrapper the migration checker
returns exactly the single missing-wrapper warning (no statement-level rule is
evaluated); with the wrapper present the missing-wrapper warning is never
emitted. -/
theorem migration_wrapper_dichotomy :
    (∀ content : Str, hasProperWrapper (stripPlus content) = false →
       validateDatabaseMigration content = [wrapperMsg]) ∧
    (∀ content : Str, hasProperWrapper (stripPlus content) = true →
       wrapperMsg ∉ validateDatabaseMigration content) := by
  constructor
  · intro content h
    unfold validateDatabaseMigration
    simp [h]
  · intro content h hmem
    unfold validateDatabaseMigration at hmem
    simp only [h, if_true] at hmem
    rcases List.mem_filterMap.mp hmem with ⟨q, hq, heq⟩
    have hq2 : q.2 = wrapperMsg := by
      revert heq
      split <;> intro heq
      · exact Option.some.inj heq
      · cases heq
    simp only [riskyRules, List.mem_cons, List.not_mem_nil, or_false] at hq
    rcases hq with rfl | rfl | rfl | rfl <;> exact absurd hq2 (by decide)

/-- Witness for C2: a bare `ALTER TABLE` blob has no wrapper and yields exactly
the missing-wrapper warning. -/
theorem migration_wrapper_dichotomy_witness :
    hasProperWrapper
      (stripPlus (strOf "ALTER TABLE users ADD COLUMN email VARCHAR(255);")) =
      false ∧
    validateDatabaseMigration
      (strOf "ALTER TABLE users ADD COLUMN email VARCHAR(255);") =
      [wrapperMsg] :=
  ⟨by decide, migration_wrapper_dichotomy.1 _ (by decide)⟩

/-! ### The dispatcher as a concatenation of per-file results -/

lemma analyzeCode_eq_flatten (d : List ChangedFile) :
    analyzeCode d = (d.map fileIssues).flatten := by
  have h : ∀ (l : List ChangedFile) (init : List Str),
      l.foldl (fun issues f => issues ++ fileIssues f) init =
        init ++ (l.map fileIssues).flatten := by
    intro l
    induction l with
    | nil => intro init; simp
    | cons f fs ih => intro init; simp [ih]
  simpa using h d []

/-- C9: the dispatcher is a pure, deterministic function of the parsed diff:
its output is exactly the order-stable concatenation of per-file warning
lists, so two invocations on the same input produce identical, order-stable
issue lists and no state is shared across files or runs. -/
theorem analyzeCode_deterministic :
    ∀ parsedDiff : List ChangedFile,
      analyzeCode parsedDiff = (parsedDiff.map fileIssues).flatten :=
  analyzeCode_eq_flatten

/-- C8: a ChangedFile whose destination is absent or the `/dev/null` sentinel
contributes zero warnings: removing it from the parsed diff leaves the
dispatcher output unchanged, whatever its chunks contain. -/
theorem deleted_file_contributes_nothing (xs ys : List ChangedFile)
    (f : ChangedFile)
    (h : f.«to» = none ∨ f.«to» = some (strOf "/dev/null")) :
    analyzeCode (xs ++ f :: ys) = analyzeCode (xs ++ ys) := by
  have hz : fileIssues f = [] := by
    rcases h with h | h
    · unfold fileIssues
      rw [h]
    · unfold fileIssues
      rw [h]
      simp
  rw [analyzeCode_eq_flatten, analyzeCode_eq_flatten]
  simp [hz]

/-- Witness for C8: a `/dev/null` file with risky content contributes no
warning. -/
theorem deleted_file_contributes_nothing_witness :
    ((⟨some (strOf "/dev/null"),
        [⟨[⟨ChangeType.add, strOf "\"left-pad\": \"^1.0.0\""⟩]⟩]⟩ :
        ChangedFile).«to» = none ∨
     (⟨some (strOf "/dev/null"),
        [⟨[⟨ChangeType.add, strOf "\"left-pad\": \"^1.0.0\""⟩]⟩]⟩ :
        ChangedFile).«to» = some (strOf "/dev/null")) ∧
    analyzeCode ([] ++ ⟨some (strOf "/dev/null"),
        [⟨[⟨ChangeType.add, strOf "\"left-pad\": \"^1.0.0\""⟩]⟩]⟩ :: []) =
      analyzeCode ([] ++ []) :=
  ⟨Or.inr rfl, deleted_file_contributes_nothing [] [] _ (Or.inr rfl)⟩

/-- C7: the node matcher warns for a `"name": "version"` pair iff the version
starts with `^` or `~` or is exactly `*`; a blob `"pkg": "^1.0.0"` yields
exactly the one warning naming `pkg` and `^1.0.0`, and `"pkg": "1.0.0"` yields
none. -/
theorem node_version_policy :
    (∀ (content w : Str),
       w ∈ validateNodePackage content ↔
         ∃ m ∈ scanAll nodeStep content,
           (m.2.head? = some '^' || m.2.head? = some '~' ||
             m.2 = strOf "*") = true ∧ w = nodeMsg m.1 m.2) ∧
    validateNodePackage (strOf "\"pkg\": \"^1.0.0\"") =
      [nodeMsg (strOf "pkg") (strOf "^1.0.0")] ∧
    validateNodePackage (strOf "\"pkg\": \"1.0.0\"") = [] := by
  refine ⟨?_, by decide, by decide⟩
  intro content w
  unfold validateNodePackage
  rw [List.mem_filterMap]
  constructor
  · rintro ⟨m, hm, heq⟩
    refine ⟨m, hm, ?_⟩
    revert heq
    split <;> intro heq
    · exact ⟨by assumption, (Option.some.inj heq).symm⟩
    · cases heq
  · rintro ⟨m, hm, hcond, rfl⟩
    exact ⟨m, hm, by rw [if_pos hcond]⟩

/-! ### Message-shape helpers -/

lemma take_ne_imp_append_ne (a b x y : Str) (n : Nat) (ha : n ≤ a.length)
    (hb : n ≤ b.length) (h : a.take n ≠ b.take n) : a ++ x ≠ b ++ y := by
  intro he
  apply h
  have hcong := congrArg (List.take n) he
  rwa [List.take_append_of_le_length ha, List.take_append_of_le_length hb]
    at hcong

lemma mavenMsg_inj {u v : Str} (h : mavenMsg u = mavenMsg v) : u = v := by
  unfold mavenMsg at h
  rw [List.append_assoc, List.append_assoc] at h
  exact List.append_cancel_right (List.append_cancel_left h)

lemma count_filterMap_guard {α β : Type} [BEq α] [LawfulBEq α] [BEq β]
    [LawfulBEq β] (f : α → β) (hf : ∀ x y, f x = f y → x = y) (p : α → Bool)
    (l : List α) (a : α) :
    (l.filterMap (fun x => if p x then some (f x) else none)).count (f a) =
      (l.filter p).count a := by
  induction l with
  | nil => rfl
  | cons x xs ih =>
    rw [List.filterMap_cons, List.filter_cons]
    cases hx : p x with
    | false => simpa [hx] using ih
    | true =>
      simp only [hx, if_true]
      rw [List.count_cons, List.count_cons, ih]
      cases hxy : x == a with
      | true =>
        have hxa : x = a := eq_of_beq hxy
        subst hxa
        simp
      | false =>
        have hfx : (f x == f a) = false := by
          rw [beq_eq_false_iff_ne]
          exact fun he => (ne_of_beq_false hxy) (hf x a he)
        simp [hfx, hxy]

lemma count_mavenMsg_gradle (content v : Str) :
    ((scanAll gradleStep content).filterMap (fun m =>
      if gradleBad m.2.2 then some (gradleMsg m.1 m.2.1 m.2.2) else none)).count
      (mavenMsg v) = 0 := by
  rw [List.count_eq_zero]
  intro hmem
  rcases List.mem_filterMap.mp hmem with ⟨m, hm, heq⟩
  revert heq
  split <;> intro heq
  · have hne : gradleMsg m.1 m.2.1 m.2.2 ≠ mavenMsg v := by
      have hg : gradleMsg m.1 m.2.1 m.2.2 =
          strOf "⚠️ Gradle dependency `" ++ (m.1 ++ (strOf ":" ++ (m.2.1 ++
            (strOf "` should use exact version instead of `" ++
              (m.2.2 ++ strOf "`."))))) := by
        simp [gradleMsg]
      have hmv : mavenMsg v =
          strOf "⚠️ Maven dependency should use exact version instead of `" ++
            (v ++ strOf "`.") := by
        simp [mavenMsg]
      rw [hg, hmv]
      exact take_ne_imp_append_ne _ _ _ _ 5 (by decide) (by decide) (by decide)
    exact hne (Option.some.inj heq)
  · cases heq

/-- C4 counterexample: the Maven branch's warning does not name the offending
package.  Two pom fragments declaring different artifacts but the same
floating version produce identical warning lists, the single warning carries
only the version, and the artifact name does not occur in its text. -/
theorem maven_warning_counterexample :
    validateJavaPackage
        (strOf "<artifactId>alpha</artifactId>\n<version>1.0-SNAPSHOT</version>") =
      validateJavaPackage
        (strOf "<artifactId>omega</artifactId>\n<version>1.0-SNAPSHOT</version>") ∧
    (strOf "<artifactId>alpha</artifactId>\n<version>1.0-SNAPSHOT</version>" :
        Str) ≠
      strOf "<artifactId>omega</artifactId>\n<version>1.0-SNAPSHOT</version>" ∧
    validateJavaPackage
        (strOf "<artifactId>alpha</artifactId>\n<version>1.0-SNAPSHOT</version>") =
      [mavenMsg (strOf "1.0-SNAPSHOT")] ∧
    containsSub (strOf "alpha") (mavenMsg (strOf "1.0-SNAPSHOT")) = false :=
  ⟨by decide, by decide, by decide, by decide⟩

lemma filterMap_guard_eq_map_filter {α β : Type} (p : α → Bool) (f : α → β)
    (l : List α) :
    l.filterMap (fun x => if p x then some (f x) else none) =
      (l.filter p).map f := by
  induction l with
  | nil => rfl
  | cons x xs ih =>
    rw [List.filterMap_cons, List.filter_cons]
    cases hx : p x with
    | true =>
      simp only [hx, if_true, List.map_cons]
      rw [ih]
    | false =>
      simp only [hx, Bool.false_eq_true, if_false]
      exact ih

lemma flatMap_eq_filterMap {α β : Type} (f : α → List β) (g : α → Option β)
    (h : ∀ x, f x = (g x).toList) (l : List α) :
    l.flatMap f = l.filterMap g := by
  induction l with
  | nil => rfl
  | cons x xs ih =>
    rw [List.flatMap_cons, List.filterMap_cons, h x, ih]
    cases g x with
    | none => rfl
    | some b => rfl

lemma containsSub_self (v : Str) : containsSub v v = true := by
  unfold containsSub
  rw [List.any_eq_true]
  exact ⟨v, (List.mem_tails _ _).mpr (List.suffix_refl v),
    List.isPrefixOf_iff_prefix.mpr (List.prefix_refl v)⟩

lemma containsSub_append_right (v x s : Str) (h : containsSub v s = true) :
    containsSub v (x ++ s) = true := by
  unfold containsSub at h ⊢
  rw [List.any_eq_true] at h ⊢
  rcases h with ⟨t, ht, hp⟩
  exact ⟨t, (List.mem_tails _ _).mpr
    (((List.mem_tails _ _).mp ht).trans (List.suffix_append x s)), hp⟩

lemma containsSub_append_left (v s y : Str) (h : containsSub v s = true) :
    containsSub v (s ++ y) = true := by
  unfold containsSub at h ⊢
  rw [List.any_eq_true] at h ⊢
  rcases h with ⟨t, ht, hp⟩
  rcases (List.mem_tails _ _).mp ht with ⟨u, rfl⟩
  refine ⟨t ++ y, (List.mem_tails _ _).mpr ⟨u, (List.append_assoc u t y).symm⟩, ?_⟩
  exact List.isPrefixOf_iff_prefix.mpr
    ((List.isPrefixOf_iff_prefix.mp hp).trans (List.prefix_append t y))

/-- C4 amended: every version-pinning matcher emits exactly one warning per
match that fails its exact-version policy, in match order — each matcher's
warning list is precisely the image of its failing matches; every warning
carries the rejected version string, and names the offending
package/image/action as well, except the Maven `<version>` branch, whose
warning carries only the version (its matcher captures no artifact name). -/
theorem version_warning_per_match :
    (∀ content : Str, validateNodePackage content =
       ((scanAll nodeStep content).filter (fun m =>
         m.2.head? = some '^' || m.2.head? = some '~' ||
           m.2 = strOf "*")).map (fun m => nodeMsg m.1 m.2)) ∧
    (∀ content : Str, validatePythonPackage content =
       ((scanLines pyStep content).filter (fun m => pyFlag m.2)).map
         (fun m => pyMsg m.1 (m.2.getD (strOf "unspecified")))) ∧
    (∀ content : Str, validateRubyPackage content =
       ((scanAll rubyStep content).filter (fun m =>
         containsSub (strOf "~>") m.2 || containsSub (strOf ">") m.2 ||
           containsSub (strOf "<") m.2)).map (fun m => rubyMsg m.1 m.2)) ∧
    (∀ content : Str, validateJavaPackage content =
       ((scanAll gradleStep content).filter (fun m => gradleBad m.2.2)).map
         (fun m => gradleMsg m.1 m.2.1 m.2.2) ++
       ((scanAll mavenStep content).filter mavenBad).map mavenMsg) ∧
    (∀ content : Str, validateKubernetesManifest content =
       ((scanAll k8sStep content).filter (fun m => k8sBadTag m.2)).map
         (fun m => k8sMsg m.1 m.2)) ∧
    (∀ content : Str, validateDockerCompose content =
       ((scanAll composeStep content).filter (fun m => k8sBadTag m.2)).map
         (fun m => composeMsg m.1 m.2)) ∧
    (∀ content : Str, validateGitHubActions content =
       ((scanAll ghStep content).filter (fun m =>
         m.2 = strOf "main" || m.2 = strOf "master" ||
           !isVSemver m.2)).map (fun m => ghMsg m.1 m.2)) ∧
    (∀ content : Str, validateDockerfile content =
       (scanLines fromStep (stripPlus content)).filterMap (fun l =>
         match firstSome fromInner l with
         | none => none
         | some (image, none) => some (dockerNoTagMsg image)
         | some (image, some tag) =>
           if floatTag tag then some (dockerFloatMsg image tag) else none)) ∧
    (∀ content v : Str, (validateJavaPackage content).count (mavenMsg v) =
       ((scanAll mavenStep content).filter mavenBad).count v) ∧
    (∀ n v : Str, containsSub n (nodeMsg n v) = true ∧
       containsSub v (nodeMsg n v) = true) ∧
    (∀ n v : Str, containsSub n (pyMsg n v) = true ∧
       containsSub v (pyMsg n v) = true) ∧
    (∀ n v : Str, containsSub n (rubyMsg n v) = true ∧
       containsSub v (rubyMsg n v) = true) ∧
    (∀ g a v : Str, containsSub g (gradleMsg g a v) = true ∧
       containsSub a (gradleMsg g a v) = true ∧
       containsSub v (gradleMsg g a v) = true) ∧
    (∀ v : Str, containsSub v (mavenMsg v) = true) ∧
    (∀ (i : Str) (t : Option Str), containsSub i (k8sMsg i t) = true ∧
       containsSub (t.getD (strOf "latest")) (k8sMsg i t) = true) ∧
    (∀ (i : Str) (t : Option Str), containsSub i (composeMsg i t) = true ∧
       containsSub (t.getD (strOf "latest")) (composeMsg i t) = true) ∧
    (∀ i : Str, containsSub i (dockerNoTagMsg i) = true) ∧
    (∀ i t : Str, containsSub i (dockerFloatMsg i t) = true ∧
       containsSub t (dockerFloatMsg i t) = true) ∧
    (∀ a v : Str, containsSub a (ghMsg a v) = true ∧
       containsSub v (ghMsg a v) = true) := by
  refine ⟨?_, ?_, ?_, ?_, ?_, ?_, ?_, ?_, ?_, ?_, ?_, ?_, ?_, ?_, ?_, ?_, ?_,
    ?_, ?_⟩
  · intro content
    unfold validateNodePackage
    exact filterMap_guard_eq_map_filter _ _ _
  · intro content
    unfold validatePythonPackage
    exact filterMap_guard_eq_map_filter _ _ _
  · intro content
    unfold validateRubyPackage
    exact filterMap_guard_eq_map_filter _ _ _
  · intro content
    unfold validateJavaPackage
    rw [filterMap_guard_eq_map_filter (fun m => gradleBad m.2.2)
        (fun m => gradleMsg m.1 m.2.1 m.2.2) (scanAll gradleStep content),
      filterMap_guard_eq_map_filter mavenBad mavenMsg
        (scanAll mavenStep content)]
  · intro content
    unfold validateKubernetesManifest
    exact filterMap_guard_eq_map_filter _ _ _
  · intro content
    unfold validateDockerCompose
    exact filterMap_guard_eq_map_filter _ _ _
  · intro content
    unfold validateGitHubActions
    exact filterMap_guard_eq_map_filter _ _ _
  · intro content
    simp only [validateDockerfile]
    refine flatMap_eq_filterMap fromLineIssues _ ?_ _
    intro l
    unfold fromLineIssues
    cases hfs : firstSome fromInner l with
    | none => simp
    | some m =>
      rcases m with ⟨img, tagOpt⟩
      cases tagOpt with
      | none => simp
      | some tag =>
        simp only []
        cases hft : floatTag tag with
        | true => simp [hft]
        | false => simp [hft]
  · intro content v
    unfold validateJavaPackage
    rw [List.count_append, count_mavenMsg_gradle,
      count_filterMap_guard mavenMsg (fun _ _ h => mavenMsg_inj h) mavenBad _ v,
      Nat.zero_add]
  · intro n v
    unfold nodeMsg
    exact ⟨containsSub_append_left _ _ _ (containsSub_append_left _ _ _
        (containsSub_append_left _ _ _ (containsSub_append_right _ _ _
          (containsSub_self n)))),
      containsSub_append_left _ _ _ (containsSub_append_right _ _ _
        (containsSub_self v))⟩
  · intro n v
    unfold pyMsg
    exact ⟨containsSub_append_left _ _ _ (containsSub_append_left _ _ _
        (containsSub_append_left _ _ _ (containsSub_append_right _ _ _
          (containsSub_self n)))),
      containsSub_append_left _ _ _ (containsSub_append_right _ _ _
        (containsSub_self v))⟩
  · intro n v
    unfold rubyMsg
    exact ⟨containsSub_append_left _ _ _ (containsSub_append_left _ _ _
        (containsSub_append_left _ _ _ (containsSub_append_right _ _ _
          (containsSub_self n)))),
      containsSub_append_left _ _ _ (containsSub_append_right _ _ _
        (containsSub_self v))⟩
  · intro g a v
    unfold gradleMsg
    exact ⟨containsSub_append_left _ _ _ (containsSub_append_left _ _ _
        (containsSub_append_left _ _ _ (containsSub_append_left _ _ _
          (containsSub_append_left _ _ _ (containsSub_append_right _ _ _
            (containsSub_self g)))))),
      containsSub_append_left _ _ _ (containsSub_append_left _ _ _
        (containsSub_append_left _ _ _ (containsSub_append_right _ _ _
          (containsSub_self a)))),
      containsSub_append_left _ _ _ (containsSub_append_right _ _ _
        (containsSub_self v))⟩
  · intro v
    unfold mavenMsg
    exact containsSub_append_left _ _ _ (containsSub_append_right _ _ _
      (containsSub_self v))
  · intro i t
    unfold k8sMsg
    exact ⟨containsSub_append_left _ _ _ (containsSub_append_left _ _ _
        (containsSub_append_left _ _ _ (containsSub_append_right _ _ _
          (containsSub_self i)))),
      containsSub_append_left _ _ _ (containsSub_append_right _ _ _
        (containsSub_self _))⟩
  · intro i t
    unfold composeMsg
    exact ⟨containsSub_append_left _ _ _ (containsSub_append_left _ _ _
        (containsSub_append_left _ _ _ (containsSub_append_right _ _ _
          (containsSub_self i)))),
      containsSub_append_left _ _ _ (containsSub_append_right _ _ _
        (containsSub_self _))⟩
  · intro i
    unfold dockerNoTagMsg
    exact containsSub_append_left _ _ _ (containsSub_append_right _ _ _
      (containsSub_self i))
  · intro i t
    unfold dockerFloatMsg
    exact ⟨containsSub_append_left _ _ _ (containsSub_append_left _ _ _
        (containsSub_append_left _ _ _ (containsSub_append_right _ _ _
          (containsSub_self i)))),
      containsSub_append_left _ _ _ (containsSub_append_right _ _ _
        (containsSub_self t))⟩
  · intro a v
    unfold ghMsg
    exact ⟨containsSub_append_left _ _ _ (containsSub_append_left _ _ _
        (containsSub_append_left _ _ _ (containsSub_append_right _ _ _
          (containsSub_self a)))),
      containsSub_append_left _ _ _ (containsSub_append_right _ _ _
        (containsSub_self v))⟩

/-- C3 (code bug): the dispatcher never performs a glob match.  The source
evaluates `pattern.match(file.to!)`, which compiles the FILE PATH as a regular
expression and searches for it inside the pattern string.  For the path
`pack.ge.json` — whose suffix matches no validator extension and which no glob
pattern matches — the node validator nevertheless runs, because the path read
as a regex (with `.` wildcards) matches the pattern string `package.json`. -/
theorem dispatcher_path_as_regex_divergence :
    analyzeCode [⟨some (strOf "pack.ge.json"),
        [⟨[⟨ChangeType.add, strOf "\"pkg\": \"^1.0.0\""⟩]⟩]⟩] =
      [nodeMsg (strOf "pkg") (strOf "^1.0.0")] ∧
    (∀ v ∈ PACKAGE_VALIDATORS ++ CONTAINER_VALIDATORS,
       v.extensions.all (fun e => !e.isSuffixOf (strOf "pack.ge.json")) =
         true ∧
       v.patterns.all (fun p => !globMatch p (strOf "pack.ge.json")) = true) ∧
    patternTest (strOf "package.json") (strOf "pack.ge.json") = true :=
  ⟨by decide, by decide, by decide⟩

/-! ### Fixed message heads (towards C10) -/

/-- `w` starts with the fixed text `pre`. -/
def headedBy (pre w : Str) : Prop := ∃ x : Str, w = pre ++ x

lemma headed_clash {p q w : Str} (hp : headedBy p w) (hq : headedBy q w)
    (h5p : 5 ≤ p.length) (h5q : 5 ≤ q.length) (hne : p.take 5 ≠ q.take 5) :
    False := by
  rcases hp with ⟨x, rfl⟩
  rcases hq with ⟨y, hy⟩
  exact take_ne_imp_append_ne p q x y 5 h5p h5q hne hy

lemma mem_filterMap_if {α β : Type} {l : List α} {c : α → Bool} {g : α → β}
    {w : β} (h : w ∈ l.filterMap (fun m => if c m then some (g m) else none)) :
    ∃ m ∈ l, w = g m := by
  rcases List.mem_filterMap.mp h with ⟨m, hm, heq⟩
  refine ⟨m, hm, ?_⟩
  revert heq
  split <;> intro heq
  · exact (Option.some.inj heq).symm
  · cases heq

lemma node_headed {c w : Str} (h : w ∈ validateNodePackage c) :
    headedBy (strOf "⚠️ Package `") w := by
  rcases mem_filterMap_if h with ⟨m, _, rfl⟩
  exact ⟨m.1 ++ (strOf "` should use exact version instead of `" ++
    (m.2 ++ strOf "`. Use exact version pinning for reproducible builds.")),
    by simp [nodeMsg]⟩

lemma python_headed {c w : Str} (h : w ∈ validatePythonPackage c) :
    headedBy (strOf "⚠️ Python package `") w := by
  rcases mem_filterMap_if h with ⟨m, _, rfl⟩
  exact ⟨m.1 ++ (strOf "` should use exact version (==) instead of `" ++
    ((m.2.getD (strOf "unspecified")) ++ strOf "`.")), by simp [pyMsg]⟩

lemma ruby_headed {c w : Str} (h : w ∈ validateRubyPackage c) :
    headedBy (strOf "⚠️ Ruby gem `") w := by
  rcases mem_filterMap_if h with ⟨m, _, rfl⟩
  exact ⟨m.1 ++ (strOf "` should use exact version instead of `" ++
    (m.2 ++ strOf "`.")), by simp [rubyMsg]⟩

lemma java_headed {c w : Str} (h : w ∈ validateJavaPackage c) :
    headedBy (strOf "⚠️ Gradle dependency `") w ∨
    headedBy (strOf "⚠️ Maven dependency should use exact version instead of `")
      w := by
  unfold validateJavaPackage at h
  rcases List.mem_append.mp h with h1 | h1
  · left
    rcases mem_filterMap_if h1 with ⟨m, _, rfl⟩
    exact ⟨m.1 ++ (strOf ":" ++ (m.2.1 ++
      (strOf "` should use exact version instead of `" ++
        (m.2.2 ++ strOf "`.")))), by simp [gradleMsg]⟩
  · right
    rcases mem_filterMap_if h1 with ⟨v, _, rfl⟩
    exact ⟨v ++ strOf "`.", by simp [mavenMsg]⟩

lemma k8s_headed {c w : Str} (h : w ∈ validateKubernetesManifest c) :
    headedBy (strOf "⚠️ Kubernetes container `") w := by
  rcases mem_filterMap_if h with ⟨m, _, rfl⟩
  exact ⟨m.1 ++ (strOf "` should use specific version tag instead of `" ++
    ((m.2.getD (strOf "latest")) ++ strOf "`.")), by simp [k8sMsg]⟩

lemma compose_headed {c w : Str} (h : w ∈ validateDockerCompose c) :
    headedBy (strOf "⚠️ Docker Compose service `") w := by
  rcases mem_filterMap_if h with ⟨m, _, rfl⟩
  exact ⟨m.1 ++ (strOf "` should use specific version tag instead of `" ++
    ((m.2.getD (strOf "latest")) ++ strOf "`.")), by simp [composeMsg]⟩

lemma docker_headed {c w : Str} (h : w ∈ validateDockerfile c) :
    headedBy (strOf "⚠️ Docker image `") w := by
  simp only [validateDockerfile] at h
  rcases List.mem_flatMap.mp h with ⟨l, _, hw⟩
  unfold fromLineIssues at hw
  split at hw
  · cases hw
  · rename_i image heqn
    rcases List.mem_singleton.mp hw with rfl
    exact ⟨image ++ strOf "` has no version tag specified. Use specific version tags for reproducible builds.",
      by simp [dockerNoTagMsg]⟩
  · rename_i image tag heqn
    split at hw
    · rcases List.mem_singleton.mp hw with rfl
      exact ⟨image ++ (strOf ":" ++ (tag ++
        strOf "` uses non-specific tag. Use complete version numbers (e.g., '20.5.0-alpine3.18').")),
        by simp [dockerFloatMsg]⟩
    · cases hw

lemma migration_headed {c w : Str} (h : w ∈ validateDatabaseMigration c) :
    headedBy (strOf "⚠️ Migration should be wrapped in `DO $$ BEGIN ... END $$` block") w ∨
    headedBy (strOf "⚠️ Use `") w ∨
    headedBy (strOf "⚠️ Consider adding `") w := by
  simp only [validateDatabaseMigration] at h
  split at h
  · rcases List.mem_filterMap.mp h with ⟨q, hq, heq⟩
    have hw : w = q.2 := by
      revert heq
      split <;> intro heq
      · exact (Option.some.inj heq).symm
      · cases heq
    simp only [riskyRules, List.mem_cons, List.not_mem_nil, or_false] at hq
    rcases hq with rfl | rfl | rfl | rfl
    · exact Or.inr (Or.inl ⟨strOf "CREATE TABLE IF NOT EXISTS` for idempotent table creation", by rw [hw]; decide⟩)
    · exact Or.inr (Or.inl ⟨strOf "ALTER TABLE IF EXISTS` for idempotent table alterations", by rw [hw]; decide⟩)
    · exact Or.inr (Or.inr ⟨strOf "WHERE NOT EXISTS` check for idempotent data insertion", by rw [hw]; decide⟩)
    · exact Or.inr (Or.inl ⟨strOf "DROP TABLE IF EXISTS` for idempotent table removal", by rw [hw]; decide⟩)
  · rcases List.mem_singleton.mp h with rfl
    exact Or.inl ⟨[], by decide⟩

lemma gh_headed {c w : Str} (h : w ∈ validateGitHubActions c) :
    headedBy (strOf "⚠️ GitHub Action `") w := by
  rcases mem_filterMap_if h with ⟨m, _, rfl⟩
  exact ⟨m.1 ++ (strOf "` should use exact version (e.g., v1.2.3) instead of `" ++
    (m.2 ++ strOf "`. Use specific versions for reproducible workflows.")),
    by simp [ghMsg]⟩

/-- The fixed heads of every warning the dispatcher can emit. -/
def corePrefixes : List Str :=
  [strOf "⚠️ Package `", strOf "⚠️ Python package `", strOf "⚠️ Ruby gem `",
   strOf "⚠️ Gradle dependency `",
   strOf "⚠️ Maven dependency should use exact version instead of `",
   strOf "⚠️ Kubernetes container `", strOf "⚠️ Docker Compose service `",
   strOf "⚠️ Docker image `",
   strOf "⚠️ Migration should be wrapped in `DO $$ BEGIN ... END $$` block",
   strOf "⚠️ Use `", strOf "⚠️ Consider adding `"]

lemma fileIssues_headed {f : ChangedFile} {w : Str} (h : w ∈ fileIssues f) :
    ∃ pre ∈ corePrefixes, headedBy pre w := by
  unfold fileIssues at h
  cases hto : f.«to» with
  | none => rw [hto] at h; cases h
  | some path =>
    simp only [hto] at h
    split at h
    · cases h
    · rcases List.mem_append.mp h with h12 | h3
      · rcases List.mem_append.mp h12 with h1 | h2
        · rcases List.mem_flatMap.mp h1 with ⟨v, hv, hw⟩
          have hvm := (List.mem_filter.mp hv).1
          simp only [PACKAGE_VALIDATORS, List.mem_cons, List.not_mem_nil,
            or_false] at hvm
          rcases hvm with rfl | rfl | rfl | rfl
          · exact ⟨_, by simp [corePrefixes], node_headed hw⟩
          · exact ⟨_, by simp [corePrefixes], python_headed hw⟩
          · exact ⟨_, by simp [corePrefixes], ruby_headed hw⟩
          · rcases java_headed hw with hj | hj
            · exact ⟨_, by simp [corePrefixes], hj⟩
            · exact ⟨_, by simp [corePrefixes], hj⟩
        · rcases List.mem_flatMap.mp h2 with ⟨v, hv, hw⟩
          have hvm := (List.mem_filter.mp hv).1
          simp only [CONTAINER_VALIDATORS, List.mem_cons, List.not_mem_nil,
            or_false] at hvm
          rcases hvm with rfl | rfl | rfl
          · exact ⟨_, by simp [corePrefixes], docker_headed hw⟩
          · exact ⟨_, by simp [corePrefixes], k8s_headed hw⟩
          · exact ⟨_, by simp [corePrefixes], compose_headed hw⟩
      · split at h3
        · rcases migration_headed h3 with hm | hm | hm
          · exact ⟨_, by simp [corePrefixes], hm⟩
          · exact ⟨_, by simp [corePrefixes], hm⟩
          · exact ⟨_, by simp [corePrefixes], hm⟩
        · cases h3

/-- C10: the dispatcher's output never contains a GitHub Actions warning: the
`uses:` matcher `validateGitHubActions` is registered in neither registry and
is never invoked, so no warning it could produce — on any content — ever
appears in `analyzeCode`'s output. -/
theorem no_github_actions_warning :
    ∀ (parsedDiff : List ChangedFile) (w content : Str),
      w ∈ analyzeCode parsedDiff → w ∉ validateGitHubActions content := by
  intro d w c hw hgh
  have hghh := gh_headed hgh
  rw [analyzeCode_eq_flatten] at hw
  rcases List.mem_flatten.mp hw with ⟨iss, hiss, hwin⟩
  rcases List.mem_map.mp hiss with ⟨f, _, rfl⟩
  rcases fileIssues_headed hwin with ⟨pre, hpre, hh⟩
  simp only [corePrefixes, List.mem_cons, List.not_mem_nil, or_false] at hpre
  rcases hpre with rfl | rfl | rfl | rfl | rfl | rfl | rfl | rfl | rfl | rfl |
    rfl <;>
    exact headed_clash hh hghh (by decide) (by decide) (by decide)

/-- Witness for C10: a Kubernetes warning produced by the dispatcher is not a
GitHub Actions warning. -/
theorem no_github_actions_warning_witness :
    k8sMsg (strOf "nginx") none ∈
      analyzeCode [⟨some (strOf "k8s/app.yaml"),
        [⟨[⟨ChangeType.add, strOf "image: nginx"⟩]⟩]⟩] ∧
    k8sMsg (strOf "nginx") none ∉
      validateGitHubActions (strOf "uses: a/b@main") :=
  ⟨by decide,
   no_github_actions_warning
     [⟨some (strOf "k8s/app.yaml"), [⟨[⟨ChangeType.add, strOf "image: nginx"⟩]⟩]⟩]
     _ _ (by decide)⟩

/-! ### Blob assembly (C6) -/

/-- The file with its removed (`del`) lines deleted. -/
def eraseRemoved (f : ChangedFile) : ChangedFile :=
  ⟨f.«to», f.chunks.map (fun chunk =>
    ⟨chunk.changes.filter (fun c => !(c.type == ChangeType.del))⟩)⟩

/-- The kept (added and context) line texts, in chunk-then-line order. -/
def keptTexts (f : ChangedFile) : List Str :=
  f.chunks.flatMap (fun chunk =>
    (chunk.changes.filter keepChange).map Change.content)

lemma filter_keep_eraseRemoved (l : List Change) :
    l.filter (fun c => keepChange c && !(c.type == ChangeType.del)) =
      l.filter keepChange := by
  induction l with
  | nil => rfl
  | cons c cs ih =>
    have hhead : (keepChange c && !(c.type == ChangeType.del)) = keepChange c := by
      cases hc : c.type <;> simp [keepChange, hc]
    rw [List.filter_cons, List.filter_cons, hhead, ih]

lemma diffContent_eraseRemoved (f : ChangedFile) :
    diffContent (eraseRemoved f) = diffContent f := by
  have h : ∀ chunks : List Chunk,
      (chunks.map (fun chunk =>
        (⟨chunk.changes.filter (fun c => !(c.type == ChangeType.del))⟩ :
          Chunk))).map
        (fun chunk => joinNl ((chunk.changes.filter keepChange).map
          Change.content)) =
      chunks.map (fun chunk => joinNl ((chunk.changes.filter keepChange).map
        Change.content)) := by
    intro chunks
    induction chunks with
    | nil => rfl
    | cons ch chs ih => simp [ih, filter_keep_eraseRemoved]
  unfold diffContent eraseRemoved
  exact congrArg joinNl (h f.chunks)

lemma splitNl_diffContent (f : ChangedFile) (hne : f.chunks ≠ [])
    (hkept : ∀ chunk ∈ f.chunks, chunk.changes.filter keepChange ≠ [])
    (hnl : ∀ chunk ∈ f.chunks, ∀ c ∈ chunk.changes.filter keepChange,
      '\n' ∉ c.content) :
    splitNl (diffContent f) = keptTexts f := by
  have htexts : ∀ chunk ∈ f.chunks,
      (chunk.changes.filter keepChange).map Change.content ≠ [] := by
    intro ch hch hmap
    exact hkept ch hch (List.map_eq_nil_iff.mp hmap)
  have hmm : f.chunks.map (fun chunk =>
      joinNl ((chunk.changes.filter keepChange).map Change.content)) =
      (f.chunks.map (fun chunk =>
        (chunk.changes.filter keepChange).map Change.content)).map joinNl := by
    rw [List.map_map]
    rfl
  unfold diffContent
  rw [hmm, joinNl_map_joinNl _ (by
    intro x hx
    rcases List.mem_map.mp hx with ⟨ch, hch, rfl⟩
    exact htexts ch hch)]
  rw [splitNl_joinNl]
  · unfold keptTexts
    rw [List.flatMap_def]
  · intro hfl
    cases hchunks : f.chunks with
    | nil => exact hne hchunks
    | cons ch chs =>
      rw [hchunks, List.map_cons, List.flatten_cons] at hfl
      rcases List.append_eq_nil.mp hfl with ⟨h1, _⟩
      exact htexts ch (by rw [hchunks]; exact List.mem_cons_self _ _) h1
  · intro l hl
    rcases List.mem_flatten.mp hl with ⟨x, hx, hlx⟩
    rcases List.mem_map.mp hx with ⟨ch, hch, rfl⟩
    rcases List.mem_map.mp hlx with ⟨c, hc, rfl⟩
    exact hnl ch hch c hc

/-- C6: the blob a validator receives is built from exactly the added and
context lines: removed lines never influence it (deleting them from the file
leaves the blob unchanged), and — when every chunk keeps at least one line and
line texts carry no embedded line feed — the blob's lines are precisely the
kept line texts in original chunk-then-line order, so any text absent from the
kept lines (in particular a removed line's text that reappears nowhere) is
absent from the blob. -/
theorem blob_exactly_kept_lines :
    (∀ f : ChangedFile, diffContent (eraseRemoved f) = diffContent f) ∧
    (∀ f : ChangedFile, f.chunks ≠ [] →
       (∀ chunk ∈ f.chunks, chunk.changes.filter keepChange ≠ []) →
       (∀ chunk ∈ f.chunks, ∀ c ∈ chunk.changes.filter keepChange,
         '\n' ∉ c.content) →
       splitNl (diffContent f) = keptTexts f) ∧
    (∀ (f : ChangedFile) (t : Str), f.chunks ≠ [] →
       (∀ chunk ∈ f.chunks, chunk.changes.filter keepChange ≠ []) →
       (∀ chunk ∈ f.chunks, ∀ c ∈ chunk.changes.filter keepChange,
         '\n' ∉ c.content) →
       t ∉ keptTexts f → t ∉ splitNl (diffContent f)) := by
  refine ⟨diffContent_eraseRemoved, splitNl_diffContent, ?_⟩
  intro f t hne hkept hnl hmem
  rw [splitNl_diffContent f hne hkept hnl]
  exact hmem

/-- Witness for C6 on a two-chunk file with added, removed and context
lines. -/
theorem blob_exactly_kept_lines_witness :
    ((⟨some (strOf "a.txt"),
       [⟨[⟨ChangeType.add, strOf "alpha"⟩, ⟨ChangeType.del, strOf "gone"⟩,
          ⟨ChangeType.normal, strOf "ctx"⟩]⟩,
        ⟨[⟨ChangeType.add, strOf "beta"⟩]⟩]⟩ : ChangedFile).chunks ≠ [] ∧
     (∀ chunk ∈ (⟨some (strOf "a.txt"),
       [⟨[⟨ChangeType.add, strOf "alpha"⟩, ⟨ChangeType.del, strOf "gone"⟩,
          ⟨ChangeType.normal, strOf "ctx"⟩]⟩,
        ⟨[⟨ChangeType.add, strOf "beta"⟩]⟩]⟩ : ChangedFile).chunks,
       chunk.changes.filter keepChange ≠ []) ∧
     (∀ chunk ∈ (⟨some (strOf "a.txt"),
       [⟨[⟨ChangeType.add, strOf "alpha"⟩, ⟨ChangeType.del, strOf "gone"⟩,
          ⟨ChangeType.normal, strOf "ctx"⟩]⟩,
        ⟨[⟨ChangeType.add, strOf "beta"⟩]⟩]⟩ : ChangedFile).chunks,
       ∀ c ∈ chunk.changes.filter keepChange, '\n' ∉ c.content)) ∧
    splitNl (diffContent (⟨some (strOf "a.txt"),
       [⟨[⟨ChangeType.add, strOf "alpha"⟩, ⟨ChangeType.del, strOf "gone"⟩,
          ⟨ChangeType.normal, strOf "ctx"⟩]⟩,
        ⟨[⟨ChangeType.add, strOf "beta"⟩]⟩]⟩ : ChangedFile)) =
      keptTexts (⟨some (strOf "a.txt"),
       [⟨[⟨ChangeType.add, strOf "alpha"⟩, ⟨ChangeType.del, strOf "gone"⟩,
          ⟨ChangeType.normal, strOf "ctx"⟩]⟩,
        ⟨[⟨ChangeType.add, strOf "beta"⟩]⟩]⟩ : ChangedFile) :=
  ⟨⟨by decide, by decide, by decide⟩,
   blob_exactly_kept_lines.2.1 _ (by decide) (by decide) (by decide)⟩

/-! ### Line-anchored scanning, fuel-normalised (towards C5) -/

/-- `scanLinesGo` with its canonical fuel. -/
def scanL (step : Str → Option (α × Nat)) (b : Bool) (s : Str) : List α :=
  scanLinesGo step s.length b s

lemma scanLinesGo_fuel (step : Str → Option (α × Nat)) :
    ∀ (n : Nat) (s : Str) (fuel : Nat) (b : Bool), s.length ≤ n →
      s.length ≤ fuel → scanLinesGo step fuel b s = scanL step b s := by
  intro n
  induction n with
  | zero =>
    intro s fuel b hn _
    have hs : s = [] := List.eq_nil_of_length_eq_zero (Nat.le_zero.mp hn)
    subst hs
    cases fuel <;> rfl
  | succ n ih =>
    intro s fuel b hn hf
    cases s with
    | nil => cases fuel <;> rfl
    | cons c rest =>
      cases fuel with
      | zero => simp at hf
      | succ m =>
        have h1 : rest.length ≤ n := by simpa using hn
        have h2 : rest.length ≤ m := by simpa using hf
        show scanLinesGo step (m + 1) b (c :: rest) =
          scanLinesGo step (c :: rest).length b (c :: rest)
        rw [List.length_cons]
        simp only [scanLinesGo]
        cases hstep : (if b then step (c :: rest) else none) with
        | none =>
          simp only [hstep]
          rw [ih rest m _ h1 h2, ih rest rest.length _ h1 (Nat.le_refl _)]
        | some ak =>
          simp only [hstep]
          have hlen : ((c :: rest).drop (max ak.2 1)).length ≤ rest.length := by
            rw [List.length_drop, List.length_cons]
            have hx := Nat.le_max_right ak.2 1
            omega
          rw [ih _ m _ (Nat.le_trans hlen h1) (Nat.le_trans hlen h2),
            ih _ rest.length _ (Nat.le_trans hlen h1) hlen]

lemma scanL_cons (step : Str → Option (α × Nat)) (b : Bool) (c : Char)
    (rest : Str) :
    scanL step b (c :: rest) =
      match (if b then step (c :: rest) else none) with
      | some (a, k) =>
        a :: scanL step (((c :: rest).take (max k 1)).getLast? = some '\n')
          ((c :: rest).drop (max k 1))
      | none => scanL step (c = '\n') rest := by
  show scanLinesGo step (c :: rest).length b (c :: rest) = _
  rw [List.length_cons]
  simp only [scanLinesGo]
  cases hstep : (if b then step (c :: rest) else none) with
  | none =>
    simp only [hstep]
    exact scanLinesGo_fuel step rest.length rest rest.length _ (Nat.le_refl _)
      (Nat.le_refl _)
  | some ak =>
    rcases ak with ⟨a, k⟩
    simp only [hstep]
    have hlen : ((c :: rest).drop (max k 1)).length ≤ rest.length := by
      rw [List.length_drop, List.length_cons]
      have hx := Nat.le_max_right k 1
      omega
    rw [scanLinesGo_fuel step rest.length _ rest.length _ hlen hlen]

lemma scanL_skip (step : Str → Option (α × Nat)) (m t : Str)
    (hm : '\n' ∉ m) : scanL step false (m ++ t) = scanL step false t := by
  induction m with
  | nil => rfl
  | cons c cs ih =>
    rw [List.cons_append, scanL_cons]
    have hcd : decide (c = '\n') = false :=
      decide_eq_false (fun h => hm (by simp [h]))
    simp only [Bool.false_eq_true, if_false]
    rw [hcd, ih (fun h => hm (List.mem_cons_of_mem c h))]

lemma scanL_sep (step : Str → Option (α × Nat)) (t : Str)
    (hnl : step ('\n' :: t) = none) :
    scanL step false ('\n' :: t) = scanL step true t ∧
    scanL step true ('\n' :: t) = scanL step true t := by
  constructor
  · rw [scanL_cons]
    simp
  · rw [scanL_cons]
    simp [hnl]

lemma fromStep_nl_none (t : Str) : fromStep ('\n' :: t) = none := by
  have hF : ('F' == '\n') = false := by decide
  have hpre : (strOf "FROM").isPrefixOf ('\n' :: t) = false := by
    have hs : strOf "FROM" = 'F' :: strOf "ROM" := rfl
    rw [hs]
    simp [List.isPrefixOf, hF]
  simp [fromStep, litSeq, hpre]

lemma isPrefixOf_append_line (l rest : Str)
    (hrest : rest = [] ∨ rest.head? = some '\n') :
    (strOf "FROM").isPrefixOf (l ++ rest) = (strOf "FROM").isPrefixOf l := by
  rcases hrest with rfl | hh
  · rw [List.append_nil]
  · obtain ⟨t, rfl⟩ : ∃ t, rest = '\n' :: t := by
      cases rest with
      | nil => simp at hh
      | cons x xs =>
        simp only [List.head?_cons, Option.some.injEq] at hh
        exact ⟨xs, by rw [hh]⟩
    have hs : strOf "FROM" = 'F' :: 'R' :: 'O' :: 'M' :: [] := rfl
    have hF : ('F' == '\n') = false := by decide
    have hR : ('R' == '\n') = false := by decide
    have hO : ('O' == '\n') = false := by decide
    have hM : ('M' == '\n') = false := by decide
    rw [hs]
    rcases l with _ | ⟨a, _ | ⟨b, _ | ⟨c, _ | ⟨d, l4⟩⟩⟩⟩
    · simp [List.isPrefixOf, hF]
    · simp [List.isPrefixOf, hR]
    · simp [List.isPrefixOf, hO]
    · simp [List.isPrefixOf, hM]
    · simp [List.isPrefixOf]

lemma dropWhile_head_false (p : Char → Bool) {l : Str} {d : Char} {ds : Str}
    (h : l.dropWhile p = d :: ds) : p d = false := by
  induction l with
  | nil => cases h
  | cons c cs ih =>
    rw [List.dropWhile_cons] at h
    split at h
    · exact ih h
    · rename_i hc
      injection h with h1 _
      subst h1
      exact Bool.not_eq_true _ |>.mp hc

lemma litSeq_self_append (tok y : Str) : litSeq tok (tok ++ y) = some y := by
  unfold litSeq
  rw [if_pos (List.isPrefixOf_iff_prefix.mpr (List.prefix_append tok y)),
    List.drop_left]

lemma fromStep_append_compute (l4 x : Str) (hnlL : '\n' ∉ l4)
    (hx : x = [] ∨ x.head? = some '\n') (hall : l4.all isJsWs = false) :
    fromStep (strOf "FROM" ++ (l4 ++ x)) =
      if (l4.takeWhile isJsWs).isEmpty then none
      else some (strOf "FROM" ++ l4, 4 + l4.length) := by
  have hws_rst : l4.takeWhile isJsWs ++ l4.dropWhile isJsWs = l4 :=
    List.takeWhile_append_dropWhile isJsWs l4
  obtain ⟨d, ds, hrst⟩ : ∃ d ds, l4.dropWhile isJsWs = d :: ds := by
    cases hr : l4.dropWhile isJsWs with
    | cons d ds => exact ⟨d, ds, rfl⟩
    | nil =>
      exfalso
      have hl4 : l4 = l4.takeWhile isJsWs := by
        conv_lhs => rw [← hws_rst]
        rw [hr, List.append_nil]
      have : l4.all isJsWs = true := by
        rw [List.all_eq_true]
        intro c hc
        exact List.mem_takeWhile_imp (hl4 ▸ hc)
      rw [this] at hall
      cases hall
  have hd : isJsWs d = false := dropWhile_head_false isJsWs hrst
  have hds_nl : ∀ c ∈ ds, c ≠ '\n' := by
    intro c hc he
    apply hnlL
    rw [← hws_rst, hrst]
    subst he
    exact List.mem_append_right _ (List.mem_cons_of_mem d hc)
  have hx_tw : x.takeWhile (fun y => y ≠ '\n') = [] := by
    rcases hx with rfl | hh
    · rfl
    · cases x with
      | nil => rfl
      | cons a t =>
        simp only [List.head?_cons, Option.some.injEq] at hh
        subst hh
        apply takeWhile_head_neg
        simp
  have ht1 : l4 ++ x = l4.takeWhile isJsWs ++ (d :: (ds ++ x)) := by
    conv_lhs => rw [← hws_rst, hrst]
    rw [List.append_assoc]
    rfl
  have htw : (l4 ++ x).takeWhile isJsWs = l4.takeWhile isJsWs := by
    rw [ht1, takeWhile_all_append isJsWs _ _
      (fun c hc => List.mem_takeWhile_imp hc), takeWhile_head_neg isJsWs d _ hd,
      List.append_nil]
  have hdrop : (l4 ++ x).drop (l4.takeWhile isJsWs).length = d :: (ds ++ x) := by
    rw [ht1, List.drop_left]
  have hbody : (ds ++ x).takeWhile (fun y => y ≠ '\n') = ds := by
    rw [takeWhile_all_append _ _ _ (fun c hc => by
      simp only [decide_eq_true_eq]
      exact hds_nl c hc), hx_tw, List.append_nil]
  unfold fromStep
  rw [litSeq_self_append]
  simp only [htw, hdrop, hbody]
  cases hwse : (l4.takeWhile isJsWs).isEmpty with
  | true => simp [hwse]
  | false =>
    simp only [hwse, Bool.false_eq_true, if_false]
    have himg : strOf "FROM" ++ l4.takeWhile isJsWs ++ (d :: ds) =
        strOf "FROM" ++ l4 := by
      rw [List.append_assoc]
      congr 1
      conv_rhs => rw [← hws_rst, hrst]
    have hlen : 4 + (l4.takeWhile isJsWs).length + (d :: ds).length =
        4 + l4.length := by
      have hsum : (l4.takeWhile isJsWs).length + (d :: ds).length =
          l4.length := by
        rw [← List.length_append]
        congr 1
        conv_rhs => rw [← hws_rst, hrst]
      omega
    rw [himg, hlen]

lemma fromStep_line (l rest : Str) (hnl : '\n' ∉ l)
    (hsafe : (strOf "FROM").isPrefixOf l = true → (l.drop 4).all isJsWs = false)
    (hrest : rest = [] ∨ rest.head? = some '\n') :
    fromStep (l ++ rest) = fromStep l ∧
    (∀ m, fromStep l = some m → m = (l, l.length)) := by
  cases hp : (strOf "FROM").isPrefixOf l with
  | false =>
    have hp2 : (strOf "FROM").isPrefixOf (l ++ rest) = false := by
      rw [isPrefixOf_append_line l rest hrest, hp]
    constructor
    · simp [fromStep, litSeq, hp, hp2]
    · intro m hm
      simp [fromStep, litSeq, hp] at hm
  | true =>
    obtain ⟨l4, rfl⟩ : ∃ l4, l = strOf "FROM" ++ l4 := by
      rcases List.isPrefixOf_iff_prefix.mp hp with ⟨l4, hl4⟩
      exact ⟨l4, hl4.symm⟩
    have h4 : (strOf "FROM").length = 4 := by decide
    have hdrop4 : (strOf "FROM" ++ l4).drop 4 = l4 := by
      rw [← h4, List.drop_left]
    have hall : l4.all isJsWs = false := by
      have := hsafe hp
      rwa [hdrop4] at this
    have hnl4 : '\n' ∉ l4 := fun hmem =>
      hnl (List.mem_append_right _ hmem)
    have hc1 := fromStep_append_compute l4 rest hnl4 hrest hall
    have hc2 := fromStep_append_compute l4 [] hnl4 (Or.inl rfl) hall
    rw [List.append_nil] at hc2
    constructor
    · rw [List.append_assoc, hc1, hc2]
    · intro m hm
      rw [hc2] at hm
      revert hm
      split <;> intro hm
      · cases hm
      · have := Option.some.inj hm
        rw [← this]
        have hlen : (strOf "FROM" ++ l4).length = 4 + l4.length := by
          rw [List.length_append, h4]
        rw [hlen]

/-- A line on which the multiline `FROM` regex cannot spill into the next
line: if it starts with `FROM`, something after the keyword is not
whitespace. -/
def fromSafeLine (l : Str) : Prop :=
  (strOf "FROM").isPrefixOf l = true → (l.drop 4).all isJsWs = false

instance (l : Str) : Decidable (fromSafeLine l) := by
  unfold fromSafeLine
  infer_instance

lemma scanL_true_line (l t' : Str) (hnl : '\n' ∉ l) (hsafe : fromSafeLine l)
    (ht' : t' = [] ∨ t'.head? = some '\n') :
    scanL fromStep true (l ++ t') =
      (match fromStep l with
       | some m => [m.1]
       | none => []) ++ scanL fromStep false t' := by
  rcases fromStep_line l t' hnl hsafe ht' with ⟨hstep_eq, hsome⟩
  cases hfs : fromStep l with
  | some m =>
    have hm := hsome m hfs
    subst hm
    obtain ⟨c, cs, rfl⟩ : ∃ c cs, l = c :: cs := by
      cases l with
      | nil => rw [show fromStep [] = none from rfl] at hfs; cases hfs
      | cons c cs => exact ⟨c, cs, rfl⟩
    rw [List.cons_append, scanL_cons]
    have hsc : fromStep (c :: (cs ++ t')) = some (c :: cs, (c :: cs).length) := by
      rw [← List.cons_append, hstep_eq, hfs]
    simp only [if_true, hsc]
    have hmax : max (c :: cs).length 1 = (c :: cs).length := by
      simp [List.length_cons]
    have htake : (c :: (cs ++ t')).take (max (c :: cs).length 1) = c :: cs := by
      rw [hmax, ← List.cons_append, List.take_left]
    have hdrop : (c :: (cs ++ t')).drop (max (c :: cs).length 1) = t' := by
      rw [hmax, ← List.cons_append, List.drop_left]
    have hlast : decide ((c :: cs).getLast? = some '\n') = false := by
      apply decide_eq_false
      intro h
      rcases List.getLast?_eq_some_iff.mp h with ⟨ys, hys⟩
      exact hnl (by rw [hys]; simp)
    rw [htake, hdrop, hlast]
    rfl
  | none =>
    cases l with
    | nil =>
      rcases ht' with rfl | hh
      · rfl
      · obtain ⟨u, rfl⟩ : ∃ u, t' = '\n' :: u := by
          cases t' with
          | nil => simp at hh
          | cons x xs =>
            simp only [List.head?_cons, Option.some.injEq] at hh
            exact ⟨xs, by rw [hh]⟩
        rcases scanL_sep fromStep u (fromStep_nl_none u) with ⟨hsep1, hsep2⟩
        rw [List.nil_append, hsep2]
        rw [show (match (none : Option (Str × Nat)) with
          | some m => [m.1] | none => ([] : List Str)) = [] from rfl]
        rw [List.nil_append, hsep1]
    | cons c cs =>
      rw [List.cons_append, scanL_cons]
      have hsc : fromStep (c :: (cs ++ t')) = none := by
        rw [← List.cons_append, hstep_eq, hfs]
      simp only [if_true, hsc]
      have hc : decide (c = '\n') = false :=
        decide_eq_false (fun h => hnl (by simp [h]))
      rw [hc, scanL_skip fromStep cs t'
        (fun h => hnl (List.mem_cons_of_mem c h))]
      rfl

lemma scanL_joinNl_lines (ls : List Str) (hnl : ∀ l ∈ ls, '\n' ∉ l)
    (hsafe : ∀ l ∈ ls, fromSafeLine l) :
    scanL fromStep true (joinNl ls) =
      ls.flatMap (fun l =>
        match fromStep l with
        | some m => [m.1]
        | none => []) := by
  induction ls with
  | nil => rfl
  | cons l rest ih =>
    cases rest with
    | nil =>
      have h := scanL_true_line l [] (hnl l (by simp)) (hsafe l (by simp))
        (Or.inl rfl)
      rw [List.append_nil] at h
      rw [show joinNl [l] = l from rfl, h,
        show scanL fromStep false [] = [] from rfl]
      simp
    | cons l2 rest2 =>
      rw [joinNl_cons _ _ (by simp)]
      have hline := scanL_true_line l ('\n' :: joinNl (l2 :: rest2))
        (hnl l (by simp)) (hsafe l (by simp)) (Or.inr rfl)
      rw [hline]
      rcases scanL_sep fromStep (joinNl (l2 :: rest2))
        (fromStep_nl_none _) with ⟨hsep1, _⟩
      rw [hsep1, ih (fun x hx => hnl x (List.mem_cons_of_mem l hx))
        (fun x hx => hsafe x (List.mem_cons_of_mem l hx)), List.flatMap_cons]
      congr 1

lemma flatMap_fromLine (ls : List Str) :
    (ls.flatMap (fun l =>
      match fromStep l with
      | some m => [m.1]
      | none => [])).flatMap fromLineIssues =
    ls.flatMap (fun l =>
      match fromStep l with
      | some m => fromLineIssues m.1
      | none => []) := by
  induction ls with
  | nil => rfl
  | cons l rest ih =>
    rw [List.flatMap_cons, List.flatMap_cons, List.flatMap_append, ih]
    cases fromStep l with
    | some m => simp
    | none => simp

lemma firstSome_cons_some {α : Type} {f : Str → Option α} {c : Char} {r : Str}
    {res : α} (h : f (c :: r) = some res) : firstSome f (c :: r) = some res := by
  unfold firstSome
  rw [List.tails_cons, List.filterMap_cons, h]
  rfl

lemma fromStep_prefix {l : Str} {m : Str × Nat} (h : fromStep l = some m) :
    (strOf "FROM").isPrefixOf l = true := by
  unfold fromStep litSeq at h
  cases hp : (strOf "FROM").isPrefixOf l with
  | true => rfl
  | false =>
    rw [hp] at h
    simp at h

lemma takeWhile1_all_append_stop (p : Char → Bool) (g rest : Str) (hg : g ≠ [])
    (hall : ∀ c ∈ g, p c = true)
    (hstop : rest = [] ∨ ∃ d ds, rest = d :: ds ∧ p d = false) :
    takeWhile1 p (g ++ rest) = some (g, rest) := by
  have htw : (g ++ rest).takeWhile p = g := by
    rw [takeWhile_all_append p g rest hall]
    rcases hstop with rfl | ⟨d, ds, rfl, hd⟩
    · simp
    · rw [takeWhile_head_neg p d ds hd, List.append_nil]
  unfold takeWhile1
  rw [htw]
  cases g with
  | nil => exact absurd rfl hg
  | cons c cs =>
    show some (c :: cs, ((c :: cs) ++ rest).drop (c :: cs).length) = _
    rw [List.drop_left]

lemma fromInner_tag (image tag : Str) (himg : image ≠ [])
    (hic : ∀ c ∈ image, isJsWs c = false ∧ c ≠ ':')
    (htag : tag ≠ []) (htg : ∀ c ∈ tag, isJsWs c = false) :
    fromInner (strOf "FROM " ++ image ++ ':' :: tag) = some (image, some tag) := by
  show fromInner (strOf "FROM" ++ (' ' :: (image ++ ':' :: tag))) = _
  unfold fromInner
  rw [litSeq_self_append]
  have hsp : isJsWs ' ' = true := by decide
  simp only [wsPlus, hsp, if_true]
  obtain ⟨i0, irest, rfl⟩ : ∃ i0 irest, image = i0 :: irest := by
    cases image with
    | nil => exact absurd rfl himg
    | cons i0 irest => exact ⟨i0, irest, rfl⟩
  have hdw : ((i0 :: irest) ++ ':' :: tag).dropWhile isJsWs =
      (i0 :: irest) ++ ':' :: tag := by
    rw [List.cons_append]
    exact dropWhile_head_neg _ _ _ ((hic i0 (by simp)).1)
  rw [hdw]
  have htw1 : takeWhile1 (fun c => !(c = ':' || isJsWs c))
      ((i0 :: irest) ++ ':' :: tag) = some (i0 :: irest, ':' :: tag) := by
    apply takeWhile1_all_append_stop _ _ _ (by simp)
    · intro c hc
      rcases hic c hc with ⟨h1, h2⟩
      simp [h1, h2]
    · right
      exact ⟨':', tag, rfl, by simp⟩
  have htg1 : takeWhile1 (fun c => !isJsWs c) tag = some (tag, []) := by
    conv_lhs => rw [← List.append_nil tag]
    apply takeWhile1_all_append_stop _ _ _ htag
    · intro c hc
      simp [htg c hc]
    · left
      rfl
  simp only [htw1, htg1]

lemma fromInner_noTag (image : Str) (himg : image ≠ [])
    (hic : ∀ c ∈ image, isJsWs c = false ∧ c ≠ ':') :
    fromInner (strOf "FROM " ++ image) = some (image, none) := by
  show fromInner (strOf "FROM" ++ (' ' :: image)) = _
  unfold fromInner
  rw [litSeq_self_append]
  have hsp : isJsWs ' ' = true := by decide
  simp only [wsPlus, hsp, if_true]
  obtain ⟨i0, irest, rfl⟩ : ∃ i0 irest, image = i0 :: irest := by
    cases image with
    | nil => exact absurd rfl himg
    | cons i0 irest => exact ⟨i0, irest, rfl⟩
  have hdw : (i0 :: irest).dropWhile isJsWs = i0 :: irest :=
    dropWhile_head_neg _ _ _ ((hic i0 (by simp)).1)
  rw [hdw]
  have htw1 : takeWhile1 (fun c => !(c = ':' || isJsWs c)) (i0 :: irest) =
      some (i0 :: irest, []) := by
    conv_lhs => rw [← List.append_nil (i0 :: irest)]
    apply takeWhile1_all_append_stop _ _ _ (by simp)
    · intro c hc
      rcases hic c hc with ⟨h1, h2⟩
      simp [h1, h2]
    · left
      rfl
  simp only [htw1]

/-- C5: the Dockerfile matcher strips diff `+` markers and processes exactly
the line-start `FROM` matches, one per line; a matched `FROM image` line with
no tag yields exactly the missing-tag warning naming the image; a matched
`FROM image:tag` line yields exactly one floating-tag warning iff the tag is
one of {latest, stable, rolling, alpine}, a bare integer, a major.minor pair
or purely alphabetic; each considered line yields at most one warning; and
`FROM image:1.2.3-alpine3.18` yields none.  (The blanket hypothesis in the
first part excludes lines that are `FROM` followed only by whitespace, where
the multiline regex spills into the next line.) -/
theorem dockerfile_from_line_policy :
    (∀ content : Str,
       (∀ l ∈ splitNl (stripPlus content), fromSafeLine l) →
       validateDockerfile content =
         (splitNl (stripPlus content)).flatMap (fun l =>
           match fromStep l with
           | some m => fromLineIssues m.1
           | none => [])) ∧
    (∀ (l : Str) (m : Str × Nat), fromStep l = some m →
       (strOf "FROM").isPrefixOf l = true) ∧
    (∀ image tag : Str, image ≠ [] →
       (∀ c ∈ image, isJsWs c = false ∧ c ≠ ':') →
       tag ≠ [] → (∀ c ∈ tag, isJsWs c = false) →
       fromLineIssues (strOf "FROM " ++ image ++ ':' :: tag) =
         if floatTag tag then [dockerFloatMsg image tag] else []) ∧
    (∀ image : Str, image ≠ [] →
       (∀ c ∈ image, isJsWs c = false ∧ c ≠ ':') →
       fromLineIssues (strOf "FROM " ++ image) = [dockerNoTagMsg image]) ∧
    (∀ l : Str, (fromLineIssues l).length ≤ 1) ∧
    fromLineIssues (strOf "FROM image:1.2.3-alpine3.18") = [] := by
  refine ⟨?_, ?_, ?_, ?_, ?_, by decide⟩
  · intro content hsafe
    simp only [validateDockerfile]
    have h1 : scanLines fromStep (stripPlus content) =
        scanL fromStep true (stripPlus content) := rfl
    rw [h1]
    conv_lhs => rw [← joinNl_splitNl (stripPlus content)]
    rw [scanL_joinNl_lines _ (nl_not_mem_splitNl _) hsafe, flatMap_fromLine]
  · intro l m h
    exact fromStep_prefix h
  · intro image tag himg hic htag htg
    unfold fromLineIssues
    cases image with
    | nil => exact absurd rfl himg
    | cons i0 irest =>
      have hinner := fromInner_tag (i0 :: irest) tag (by simp) hic htag htg
      have hcons : strOf "FROM " ++ (i0 :: irest) ++ ':' :: tag =
          'F' :: (strOf "ROM " ++ ((i0 :: irest) ++ ':' :: tag)) := rfl
      rw [hcons] at hinner ⊢
      rw [firstSome_cons_some hinner]
  · intro image himg hic
    unfold fromLineIssues
    cases image with
    | nil => exact absurd rfl himg
    | cons i0 irest =>
      have hinner := fromInner_noTag (i0 :: irest) (by simp) hic
      have hcons : strOf "FROM " ++ (i0 :: irest) =
          'F' :: (strOf "ROM " ++ (i0 :: irest)) := rfl
      rw [hcons] at hinner ⊢
      rw [firstSome_cons_some hinner]
  · intro l
    unfold fromLineIssues
    split
    · simp
    · simp
    · split <;> simp

/-- Witness for C5: the `container_examples/Dockerfile.wrong`-style blob — all
its lines are safe, and the matcher reports exactly its floating or missing
tags, one warning per offending `FROM` line, in order. -/
theorem dockerfile_from_line_policy_witness :
    (∀ l ∈ splitNl (stripPlus (strOf
        "+FROM node:latest\n+FROM ubuntu\nRUN npm install\n+FROM image:1.2.3-alpine3.18")),
      fromSafeLine l) ∧
    validateDockerfile (strOf
        "+FROM node:latest\n+FROM ubuntu\nRUN npm install\n+FROM image:1.2.3-alpine3.18") =
      (splitNl (stripPlus (strOf
        "+FROM node:latest\n+FROM ubuntu\nRUN npm install\n+FROM image:1.2.3-alpine3.18"))).flatMap
        (fun l =>
          match fromStep l with
          | some m => fromLineIssues m.1
          | none => []) :=
  ⟨by decide, dockerfile_from_line_policy.1 _ (by decide)⟩

end VersionGuard
